import Mathlib

/-!
Verification of the canonical-representation and algebra engine of the
`sumofradicals` repository (`sqrtfractions.py` and `sumofradicals.py`).

The development shallowly embeds the two Python classes:

* `SqrtFraction`   — numbers of the form `(Σᵢ nᵢ·√rᵢ) / d` with a numerator
  dictionary mapping square-root radicands to integer factors;
* `SumOfRadicals`  — numbers of the form `(Σᵢ vᵢ·rᵢ^(1/nᵢ)) / d` with a
  numerator dictionary mapping (degree, radicand) pairs to integer factors.

Dictionaries are embedded as association lists in insertion order (matching
Python `dict` semantics); machine integers are `ℤ`/`ℕ` (Python integers are
unbounded, so no wrap-around is modelled); code that raises is embedded as
`Option`-returning functions.  Loops whose termination is data-dependent
(`while` loops of the constructors and of `simplify_radical`) are embedded
with an explicit structural fuel so that all definitions reduce inside the
kernel; the fuel supplied at each call site is proved sufficient.

`Nat.minFac`, `Nat.primeFactorsList` and `Nat.sqrt` from the library are
defined by well-founded recursion and do not reduce by `decide`, so the file
defines structural equivalents (`myMinFac`, `primeFacList`, `isqrt`) and
proves them equal to (or correct against) the library functions.
-/

namespace SofR

/-! ### Structural factorisation primitives -/

/-- Trial division: the least `j` with `k ≤ j`, `j ∣ n`, found with fuel. -/
def minFacAuxF : ℕ → ℕ → ℕ → ℕ
  | 0, n, _ => n
  | fuel+1, n, k => if n % k = 0 then k else minFacAuxF fuel n (k+1)

/-- Structural version of `Nat.minFac` (for `2 ≤ n`). -/
def myMinFac (n : ℕ) : ℕ := minFacAuxF n n 2

/-- Prime factor list with structural fuel. -/
def factorAux : ℕ → ℕ → List ℕ
  | 0, _ => []
  | fuel+1, n => if n ≤ 1 then [] else myMinFac n :: factorAux fuel (n / myMinFac n)

/-- Structural version of `Nat.primeFactorsList`. -/
def primeFacList (n : ℕ) : List ℕ := factorAux n n

/-- Integer square root by downward search with structural fuel. -/
def isqrtF : ℕ → ℕ → ℕ
  | 0, _ => 0
  | fuel+1, n => if (fuel+1) * (fuel+1) ≤ n then fuel+1 else isqrtF fuel n

/-- Structural version of `math.isqrt` / `Nat.sqrt`. -/
def isqrt (n : ℕ) : ℕ := isqrtF n n

lemma minFacAuxF_spec : ∀ (fuel n k : ℕ), 2 ≤ k → k ≤ n → n + 1 ≤ k + fuel →
    minFacAuxF fuel n k ∣ n ∧ k ≤ minFacAuxF fuel n k ∧
      ∀ j, k ≤ j → j ∣ n → minFacAuxF fuel n k ≤ j := by
  intro fuel
  induction fuel with
  | zero => intro n k _ hkn hf; omega
  | succ fuel ih =>
    intro n k h2 hkn hf
    simp only [minFacAuxF]
    by_cases h : n % k = 0
    · rw [if_pos h]
      exact ⟨Nat.dvd_of_mod_eq_zero h, le_refl _, fun j hj _ => hj⟩
    · rw [if_neg h]
      have hkln : k < n := by
        rcases eq_or_lt_of_le hkn with he | hl
        · exfalso; subst he; exact h (Nat.mod_self k)
        · exact hl
      obtain ⟨hd, hle, hmin⟩ := ih n (k+1) (by omega) (by omega) (by omega)
      refine ⟨hd, by omega, fun j hj hdvd => ?_⟩
      rcases eq_or_lt_of_le hj with he | hl
      · exfalso
        rw [← he] at hdvd
        obtain ⟨c, rfl⟩ := hdvd
        exact h (Nat.mul_mod_right k c)
      · exact hmin j (by omega) hdvd

lemma myMinFac_eq (n : ℕ) (hn : 2 ≤ n) : myMinFac n = Nat.minFac n := by
  obtain ⟨hd, hle, hmin⟩ := minFacAuxF_spec n n 2 (le_refl 2) hn (by omega)
  have h1 : n ≠ 1 := by omega
  have hm2 : 2 ≤ Nat.minFac n := (Nat.minFac_prime h1).two_le
  exact le_antisymm (hmin _ hm2 (Nat.minFac_dvd n)) (Nat.minFac_le_of_dvd hle hd)

lemma factorAux_eq : ∀ (fuel n : ℕ), n ≤ fuel → factorAux fuel n = n.primeFactorsList := by
  intro fuel
  induction fuel with
  | zero =>
    intro n hn
    interval_cases n
    simp [factorAux]
  | succ fuel ih =>
    intro n hn
    by_cases h1 : n ≤ 1
    · interval_cases n <;> simp [factorAux]
    · push_neg at h1
      have h2 : 2 ≤ n := h1
      simp only [factorAux, if_neg (by omega : ¬ n ≤ 1)]
      rw [myMinFac_eq n h2]
      have hmf2 : 2 ≤ n.minFac := (Nat.minFac_prime (by omega)).two_le
      have hrec : n / n.minFac ≤ fuel := by
        have : n / n.minFac ≤ n / 2 := Nat.div_le_div_left hmf2 (by omega)
        have : n / 2 < n := Nat.div_lt_self (by omega) (by omega)
        omega
      rw [ih _ hrec]
      obtain ⟨m, rfl⟩ : ∃ m, n = m + 2 := ⟨n - 2, by omega⟩
      conv_rhs => rw [Nat.primeFactorsList]

lemma primeFacList_eq (n : ℕ) : primeFacList n = n.primeFactorsList :=
  factorAux_eq n n (le_refl n)

lemma isqrtF_sq_le : ∀ (fuel n : ℕ), isqrtF fuel n * isqrtF fuel n ≤ n := by
  intro fuel
  induction fuel with
  | zero => intro n; simp [isqrtF]
  | succ fuel ih =>
    intro n
    simp only [isqrtF]
    by_cases h : (fuel+1) * (fuel+1) ≤ n
    · rwa [if_pos h]
    · rw [if_neg h]; exact ih n

lemma le_isqrtF : ∀ (fuel n j : ℕ), j ≤ fuel → j * j ≤ n → j ≤ isqrtF fuel n := by
  intro fuel
  induction fuel with
  | zero => intro n j hj _; omega
  | succ fuel ih =>
    intro n j hj hjn
    simp only [isqrtF]
    by_cases h : (fuel+1) * (fuel+1) ≤ n
    · rw [if_pos h]; omega
    · rw [if_neg h]
      have : j ≠ fuel + 1 := by rintro rfl; exact h hjn
      exact ih n j (by omega) hjn

lemma isqrt_mul_self (m : ℕ) : isqrt (m * m) = m := by
  rcases Nat.eq_zero_or_pos m with rfl | hm
  · rfl
  · have hle : m ≤ isqrt (m * m) :=
      le_isqrtF (m*m) (m*m) m (Nat.le_mul_of_pos_left m hm) (le_refl _)
    have hge : isqrt (m * m) ≤ m := by
      by_contra hlt
      push_neg at hlt
      have := isqrtF_sq_le (m*m) (m*m)
      have : m * m < isqrt (m*m) * isqrt (m*m) :=
        Nat.mul_lt_mul_of_lt_of_le hlt (le_of_lt hlt) (by omega)
      simp only [isqrt] at *
      omega
    omega

/-! ### Factorisations as association lists of (prime, exponent) pairs -/

/-- The factorisation of `r` as a `(prime, exponent)` association list,
mirroring sympy's `factorint`. -/
def factorList (r : ℕ) : List (ℕ × ℕ) :=
  (primeFacList r).dedup.map (fun p => (p, (primeFacList r).count p))

/-- `∏ p^e` over an association list of (prime, exponent) pairs. -/
def listProd (f : List (ℕ × ℕ)) : ℕ := (f.map (fun pe => pe.1 ^ pe.2)).prod

/-- Total exponent of `q` in an association list. -/
def expAt (f : List (ℕ × ℕ)) (q : ℕ) : ℕ :=
  (f.map (fun pe => if pe.1 = q then pe.2 else 0)).sum

lemma mem_factorList {r : ℕ} {pe : ℕ × ℕ} (h : pe ∈ factorList r) :
    pe.1.Prime ∧ pe.1 ∣ r ∧ r ≠ 0 ∧ pe.2 = r.factorization pe.1 ∧ 0 < pe.2 := by
  obtain ⟨p, hp, rfl⟩ := List.mem_map.mp h
  have hmem : p ∈ r.primeFactorsList := by
    rw [← primeFacList_eq]; exact List.mem_dedup.mp hp
  have hr : r ≠ 0 := by
    rintro rfl
    simp [primeFacList_eq] at hmem
  obtain ⟨hprime, hdvd⟩ := (Nat.mem_primeFactorsList hr).mp hmem
  refine ⟨hprime, hdvd, hr, ?_, ?_⟩
  · simp [primeFacList_eq, Nat.primeFactorsList_count_eq]
  · simpa [primeFacList_eq] using List.count_pos_iff.mpr hmem

lemma factorList_keys (r : ℕ) : (factorList r).map (·.1) = (primeFacList r).dedup := by
  rw [factorList, List.map_map]
  exact List.map_id' _

lemma factorList_keys_nodup (r : ℕ) : ((factorList r).map (·.1)).Nodup := by
  rw [factorList_keys]; exact List.nodup_dedup _

lemma mk_mem_factorList {r p : ℕ} (hp : p.Prime) (hd : p ∣ r) (hr : r ≠ 0) :
    (p, r.factorization p) ∈ factorList r := by
  apply List.mem_map.mpr
  refine ⟨p, ?_, ?_⟩
  · rw [List.mem_dedup, primeFacList_eq]
    exact (Nat.mem_primeFactorsList hr).mpr ⟨hp, hd⟩
  · simp [primeFacList_eq, Nat.primeFactorsList_count_eq]

lemma listProd_nil : listProd [] = 1 := rfl

lemma listProd_cons (pe : ℕ × ℕ) (t : List (ℕ × ℕ)) :
    listProd (pe :: t) = pe.1 ^ pe.2 * listProd t := by simp [listProd]

lemma listProd_pos {f : List (ℕ × ℕ)} (h : ∀ pe ∈ f, 0 < pe.1) : 0 < listProd f := by
  induction f with
  | nil => simp [listProd]
  | cons pe t ih =>
    rw [listProd_cons]
    exact Nat.mul_pos (Nat.pos_pow_of_pos _ (h pe (List.mem_cons_self _ _)))
      (ih fun q hq => h q (List.mem_cons_of_mem _ hq))

lemma expAt_nil (q : ℕ) : expAt [] q = 0 := rfl

lemma expAt_cons (pe : ℕ × ℕ) (t : List (ℕ × ℕ)) (q : ℕ) :
    expAt (pe :: t) q = (if pe.1 = q then pe.2 else 0) + expAt t q := by simp [expAt]

lemma expAt_eq_zero {f : List (ℕ × ℕ)} {q : ℕ} (h : q ∉ f.map (·.1)) : expAt f q = 0 := by
  induction f with
  | nil => rfl
  | cons pe t ih =>
    rw [expAt_cons]
    simp only [List.map_cons, List.mem_cons] at h
    push_neg at h
    rw [if_neg (fun he => h.1 he.symm), ih h.2, zero_add]

lemma expAt_nodup_mem {f : List (ℕ × ℕ)} (hN : (f.map (·.1)).Nodup) {p e : ℕ}
    (h : (p, e) ∈ f) : expAt f p = e := by
  induction f with
  | nil => simp at h
  | cons a t ih =>
    rw [expAt_cons]
    simp only [List.map_cons, List.nodup_cons] at hN
    rcases List.mem_cons.mp h with rfl | hmem
    · rw [if_pos rfl, expAt_eq_zero hN.1, add_zero]
    · have : a.1 ≠ p := by
        intro he
        exact hN.1 (he ▸ List.mem_map.mpr ⟨(p, e), hmem, rfl⟩)
      rw [if_neg this, ih hN.2 hmem, zero_add]

lemma factorization_listProd {f : List (ℕ × ℕ)} (h : ∀ pe ∈ f, pe.1.Prime) (q : ℕ) :
    (listProd f).factorization q = expAt f q := by
  induction f with
  | nil => simp [listProd_nil, expAt_nil]
  | cons pe t ih =>
    have hp : pe.1.Prime := h pe (List.mem_cons_self _ _)
    have ht : ∀ q ∈ t, q.1.Prime := fun q hq => h q (List.mem_cons_of_mem _ hq)
    have h1 : pe.1 ^ pe.2 ≠ 0 := pow_ne_zero _ hp.pos.ne'
    have h2 : listProd t ≠ 0 := (listProd_pos fun q hq => (ht q hq).pos).ne'
    rw [listProd_cons, Nat.factorization_mul h1 h2, Finsupp.add_apply,
      hp.factorization_pow, expAt_cons, ih ht, Finsupp.single_apply]

lemma listProd_pow (f : List (ℕ × ℕ)) (m : ℕ) :
    listProd f ^ m = listProd (f.map (fun pe => (pe.1, pe.2 * m))) := by
  induction f with
  | nil => simp [listProd]
  | cons pe t ih =>
    simp only [List.map_cons, listProd_cons, mul_pow, pow_mul] at *
    rw [ih]

lemma listProd_mul_same (f : List (ℕ × ℕ)) (g h : ℕ × ℕ → ℕ) :
    listProd (f.map (fun pe => (pe.1, g pe))) * listProd (f.map (fun pe => (pe.1, h pe)))
      = listProd (f.map (fun pe => (pe.1, g pe + h pe))) := by
  induction f with
  | nil => simp [listProd]
  | cons pe t ih =>
    simp only [List.map_cons, listProd_cons, pow_add]
    rw [← ih]; ring

lemma toFinset_dedup (l : List ℕ) : l.dedup.toFinset = l.toFinset := by
  apply Finset.ext
  intro a
  simp [List.mem_toFinset, List.mem_dedup]

lemma listProd_factorList {r : ℕ} (hr : r ≠ 0) : listProd (factorList r) = r := by
  have h1 : listProd (factorList r)
      = ((primeFacList r).dedup.map (fun p => p ^ (primeFacList r).count p)).prod := by
    rw [listProd, factorList, List.map_map]
    rfl
  rw [h1, Finset.prod_list_map_count]
  have h2 : ∀ m ∈ (primeFacList r).dedup.toFinset,
      (m ^ (primeFacList r).count m) ^ ((primeFacList r).dedup.count m)
        = m ^ (primeFacList r).count m := by
    intro m hm
    rw [List.count_eq_one_of_mem (List.nodup_dedup _) (List.mem_toFinset.mp hm), pow_one]
  rw [Finset.prod_congr rfl h2, toFinset_dedup]
  have h3 : ((primeFacList r).map id).prod
      = ∏ m ∈ (primeFacList r).toFinset, id m ^ (primeFacList r).count m :=
    Finset.prod_list_map_count _ _
  simp only [List.map_id, id] at h3
  rw [← h3, primeFacList_eq]
  exact Nat.prod_primeFactorsList hr

/-! ### The square-free kernel (`sympy.ntheory.factor_.core`) and square part -/

/-- `core r` is the square-free kernel `∏ p^(e % 2)` of `r`, mirroring
sympy's `core(n)` used by `SqrtFraction.__init__`. -/
def core (r : ℕ) : ℕ := listProd ((factorList r).map (fun pe => (pe.1, pe.2 % 2)))

/-- The square part `∏ p^(e / 2)`, so that `sqPartCore r ^ 2 * core r = r`. -/
def sqPartCore (r : ℕ) : ℕ := listProd ((factorList r).map (fun pe => (pe.1, pe.2 / 2)))

lemma factorList_zero : factorList 0 = [] := by
  have : primeFacList 0 = [] := by rw [primeFacList_eq]; simp
  simp [factorList, this]

lemma core_zero : core 0 = 1 := by simp [core, factorList_zero, listProd]

lemma mapped_keys_prime {r : ℕ} (g : ℕ × ℕ → ℕ) :
    ∀ pe ∈ (factorList r).map (fun pe => (pe.1, g pe)), pe.1.Prime := by
  intro pe hpe
  obtain ⟨q, hq, rfl⟩ := List.mem_map.mp hpe
  exact (mem_factorList hq).1

lemma core_pos (r : ℕ) : 0 < core r :=
  listProd_pos fun pe hpe => (mapped_keys_prime _ pe hpe).pos

lemma sqPartCore_pos (r : ℕ) : 0 < sqPartCore r :=
  listProd_pos fun pe hpe => (mapped_keys_prime _ pe hpe).pos

lemma sq_mul_core {r : ℕ} (hr : r ≠ 0) : sqPartCore r * sqPartCore r * core r = r := by
  rw [core, sqPartCore, listProd_mul_same (factorList r) (fun pe => pe.2 / 2) (fun pe => pe.2 / 2)]
  have := listProd_mul_same (factorList r) (fun pe => pe.2 / 2 + pe.2 / 2) (fun pe => pe.2 % 2)
  rw [this]
  have hcongr : (factorList r).map (fun pe => (pe.1, pe.2 / 2 + pe.2 / 2 + pe.2 % 2))
      = (factorList r).map (fun pe => pe) := by
    apply List.map_congr_left
    intro pe _
    have : pe.2 / 2 + pe.2 / 2 + pe.2 % 2 = pe.2 := by omega
    rw [this]
  rw [hcongr, List.map_id']
  exact listProd_factorList hr

lemma core_dvd (r : ℕ) : core r ∣ r := by
  rcases Nat.eq_zero_or_pos r with rfl | hr
  · exact Dvd.intro 0 rfl
  · exact ⟨sqPartCore r * sqPartCore r, by rw [mul_comm, sq_mul_core hr.ne']⟩

lemma div_core_eq (r : ℕ) (hr : r ≠ 0) : r / core r = sqPartCore r * sqPartCore r :=
  Nat.div_eq_of_eq_mul_left (core_pos r) (sq_mul_core hr).symm

lemma isqrt_div_core {r : ℕ} (hr : r ≠ 0) : isqrt (r / core r) = sqPartCore r := by
  rw [div_core_eq r hr, isqrt_mul_self]

lemma expAt_map_mod_le {f : List (ℕ × ℕ)} (hN : (f.map (·.1)).Nodup) (q : ℕ) :
    expAt (f.map (fun pe => (pe.1, pe.2 % 2))) q ≤ 1 := by
  induction f with
  | nil => simp [expAt_nil]
  | cons a t ih =>
    simp only [List.map_cons, List.nodup_cons] at hN
    rw [List.map_cons, expAt_cons]
    by_cases h : a.1 = q
    · rw [if_pos h]
      have : q ∉ (t.map (fun pe => (pe.1, pe.2 % 2))).map (·.1) := by
        simp only [List.map_map, Function.comp]
        intro hq
        apply hN.1
        rw [h]
        simpa using hq
      rw [expAt_eq_zero this]
      omega
    · rw [if_neg h, zero_add]
      exact ih hN.2

lemma core_factorization_le (r q : ℕ) : (core r).factorization q ≤ 1 := by
  rw [core, factorization_listProd (mapped_keys_prime _)]
  have hN : ((factorList r).map (·.1)).Nodup := factorList_keys_nodup r
  exact expAt_map_mod_le hN q

lemma core_idem (r : ℕ) : core (core r) = core r := by
  have hc0 : core r ≠ 0 := (core_pos r).ne'
  have hcongr : (factorList (core r)).map (fun pe => (pe.1, pe.2 % 2))
      = (factorList (core r)).map (fun pe => pe) := by
    apply List.map_congr_left
    intro pe hpe
    obtain ⟨_, _, _, he, hpos⟩ := mem_factorList hpe
    have h1 : pe.2 ≤ 1 := he ▸ core_factorization_le r pe.1
    have : pe.2 % 2 = pe.2 := by omega
    rw [this]
  rw [core, hcongr, List.map_id']
  exact listProd_factorList hc0

lemma primeFacList_core_sub (k : ℕ) : ∀ q ∈ primeFacList (core k), q ∈ primeFacList k := by
  intro q hq
  rcases Nat.eq_zero_or_pos k with rfl | hk
  · rw [core_zero] at hq
    rw [primeFacList_eq] at hq
    simp at hq
  · rw [primeFacList_eq] at hq ⊢
    obtain ⟨hp, hd⟩ := (Nat.mem_primeFactorsList (core_pos k).ne').mp hq
    exact (Nat.mem_primeFactorsList hk.ne').mpr ⟨hp, hd.trans (core_dvd k)⟩

/-! ### `simplify_radical` (sumofradicals.py, lines 17–33) -/

/-- `gcd(*f.values(), n)`: fold `Nat.gcd` over a list, starting from `n`. -/
def gcdFoldN (n : ℕ) (es : List ℕ) : ℕ := es.foldr Nat.gcd n

/-- The `while (cd := gcd(*f.values(), n)) > 1` loop of `simplify_radical`,
with structural fuel.  The `0 < n` conjunct is redundant on every reachable
input (the callers pass `n ≥ 1` and the loop keeps `n ≥ 1` because
`g ∣ n`); it only makes the fuel argument uniform. -/
def reduceDegreeF : ℕ → ℕ → List (ℕ × ℕ) → ℕ × List (ℕ × ℕ)
  | 0, n, f => (n, f)
  | fuel+1, n, f =>
    let g := gcdFoldN n (f.map (·.2))
    if 1 < g ∧ 0 < n then
      reduceDegreeF fuel (n / g) (f.map (fun pe => (pe.1, pe.2 / g)))
    else (n, f)

/-- `simplify_radical(n, r)` from `sumofradicals.py`: returns `(s, n', r')`
with `r^(1/n) = s * r'^(1/n')`.  It pulls perfect `n`-th powers out of the
factorisation of `r` (`s = ∏ p^(e // n)`, residual exponents `e % n`), then
reduces the degree by the gcd loop, and rebuilds `r' = ∏ p^e`.  A pure
function of `(n, r)` (the `@cache` decoration in the source is only
memoisation). -/
def simplify_radical (n r : ℕ) : ℕ × ℕ × ℕ :=
  let f := factorList r
  let s := listProd (f.map (fun pe => (pe.1, pe.2 / n)))
  let f1 := f.map (fun pe => (pe.1, pe.2 % n))
  let p := reduceDegreeF n n f1
  (s, p.1, listProd p.2)

lemma gcdFoldN_dvd_init (n : ℕ) (es : List ℕ) : gcdFoldN n es ∣ n := by
  induction es with
  | nil => exact dvd_refl n
  | cons e t ih => exact (Nat.gcd_dvd_right e _).trans ih

lemma gcdFoldN_dvd_mem (n : ℕ) (es : List ℕ) : ∀ e ∈ es, gcdFoldN n es ∣ e := by
  induction es with
  | nil => intro e he; simp at he
  | cons a t ih =>
    intro e he
    rcases List.mem_cons.mp he with rfl | hmem
    · exact Nat.gcd_dvd_left e _
    · exact (Nat.gcd_dvd_right a _).trans (ih e hmem)

lemma dvd_gcdFoldN {n : ℕ} {es : List ℕ} {c : ℕ} (hc : c ∣ n) (h : ∀ e ∈ es, c ∣ e) :
    c ∣ gcdFoldN n es := by
  induction es with
  | nil => exact hc
  | cons a t ih =>
    exact Nat.dvd_gcd (h a (List.mem_cons_self _ _)) (ih fun e he => h e (List.mem_cons_of_mem _ he))

lemma keys_map_exp (l : List (ℕ × ℕ)) (h : ℕ × ℕ → ℕ) :
    (l.map (fun pe => (pe.1, h pe))).map (·.1) = l.map (·.1) := by
  rw [List.map_map]; rfl

lemma reduceDegreeF_spec : ∀ (fuel n : ℕ) (f : List (ℕ × ℕ)), 1 ≤ n → n ≤ fuel →
    ∃ D, 0 < D ∧ D ∣ n ∧ (∀ pe ∈ f, D ∣ pe.2) ∧
      (reduceDegreeF fuel n f).1 = n / D ∧
      (reduceDegreeF fuel n f).2 = f.map (fun pe => (pe.1, pe.2 / D)) ∧
      gcdFoldN (reduceDegreeF fuel n f).1 ((reduceDegreeF fuel n f).2.map (·.2)) = 1 := by
  intro fuel
  induction fuel with
  | zero => intro n f h1 h2; omega
  | succ fuel ih =>
    intro n f h1 h2
    simp only [reduceDegreeF]
    by_cases hcond : 1 < gcdFoldN n (f.map (·.2)) ∧ 0 < n
    · rw [if_pos hcond]
      set g := gcdFoldN n (f.map (·.2)) with hgdef
      have hgn : g ∣ n := gcdFoldN_dvd_init _ _
      have hge : ∀ pe ∈ f, g ∣ pe.2 := fun pe hpe =>
        gcdFoldN_dvd_mem _ _ _ (List.mem_map.mpr ⟨pe, hpe, rfl⟩)
      have hn1 : 1 ≤ n / g := Nat.div_pos (Nat.le_of_dvd (by omega) hgn) (by omega)
      have hnf : n / g ≤ fuel := by
        have := Nat.div_lt_self hcond.2 hcond.1
        omega
      obtain ⟨D, hD, hDn, hDe, h1', h2', h3'⟩ :=
        ih (n / g) (f.map (fun pe => (pe.1, pe.2 / g))) hn1 hnf
      refine ⟨g * D, Nat.mul_pos (by omega) hD, ?_, ?_, ?_, ?_, h3'⟩
      · obtain ⟨c, hc⟩ := hDn
        exact ⟨c, by rw [← Nat.div_mul_cancel hgn, hc]; ring⟩
      · intro pe hpe
        have hD2 : D ∣ pe.2 / g := by
          simpa using hDe (pe.1, pe.2 / g) (List.mem_map.mpr ⟨pe, hpe, rfl⟩)
        obtain ⟨c, hc⟩ := hD2
        exact ⟨c, by rw [← Nat.div_mul_cancel (hge pe hpe), hc]; ring⟩
      · rw [h1', Nat.div_div_eq_div_mul]
      · rw [h2', List.map_map]
        apply List.map_congr_left
        intro pe _
        simp only [Function.comp]
        rw [Nat.div_div_eq_div_mul]
    · rw [if_neg hcond]
      have hgn : gcdFoldN n (f.map (·.2)) ∣ n := gcdFoldN_dvd_init _ _
      have hg1 : gcdFoldN n (f.map (·.2)) = 1 := by
        by_cases hge : 1 < gcdFoldN n (f.map (·.2))
        · exact absurd ⟨hge, by omega⟩ hcond
        · have h0 : gcdFoldN n (f.map (·.2)) ≠ 0 := by
            intro h0
            rw [h0] at hgn
            have := Nat.eq_zero_of_zero_dvd hgn
            omega
          omega
      refine ⟨1, one_pos, one_dvd _, fun _ _ => one_dvd _, by simp, ?_, ?_⟩
      · have : f.map (fun pe => (pe.1, pe.2 / 1)) = f.map (fun pe => pe) :=
          List.map_congr_left (fun pe _ => by simp)
        rw [this, List.map_id']
      · simpa using hg1

lemma listProd_exp_zero (l : List (ℕ × ℕ)) : listProd (l.map (fun pe => (pe.1, 0))) = 1 := by
  induction l with
  | nil => rfl
  | cons pe t ih => rw [List.map_cons, listProd_cons, pow_zero, one_mul, ih]

/-- Full correctness of `simplify_radical n r` on valid inputs
(`n ≥ 1`, `r ≥ 1`), with the output destructured as `(s, n', r')`:
`n' ∣ n`, positivity, the round trip `s^n * r'^(n/n') = r`, every prime
exponent of `r'` is `< n'` (so `r'` is `n'`-th-power-free), no divisor
`> 1` is common to `n'` and the exponents of `r'`, and idempotence. -/
lemma simplify_radical_props (n r : ℕ) (hn : 1 ≤ n) (hr : 1 ≤ r) :
    ∀ s n' r', simplify_radical n r = (s, n', r') →
    n' ∣ n ∧ 1 ≤ n' ∧ 1 ≤ r' ∧ s ^ n * r' ^ (n / n') = r ∧
    (∀ q, r'.factorization q < n') ∧
    (∀ m, m ∣ n' → (∀ pe ∈ factorList r', m ∣ pe.2) → m = 1) ∧
    simplify_radical n' r' = (1, n', r') := by
  intro s n' r' hsr
  have hunf : simplify_radical n r
      = (listProd ((factorList r).map (fun pe => (pe.1, pe.2 / n))),
         (reduceDegreeF n n ((factorList r).map (fun pe => (pe.1, pe.2 % n)))).1,
         listProd (reduceDegreeF n n ((factorList r).map (fun pe => (pe.1, pe.2 % n)))).2) := rfl
  rw [hunf] at hsr
  injection hsr with hs hrest
  injection hrest with hn'e hr'e
  subst hs; subst hn'e; subst hr'e
  obtain ⟨D, hD, hDn, hDe, hres1, hres2, hgcd⟩ :=
    reduceDegreeF_spec n n ((factorList r).map (fun pe => (pe.1, pe.2 % n))) hn (le_refl n)
  have hf1keys : ∀ pe ∈ (factorList r).map (fun pe => (pe.1, pe.2 % n)), pe.1.Prime :=
    mapped_keys_prime _
  have hresKeys :
      ((reduceDegreeF n n ((factorList r).map (fun pe => (pe.1, pe.2 % n)))).2.map (·.1))
        = (factorList r).map (·.1) := by
    rw [hres2, keys_map_exp, keys_map_exp]
  have hresPrime :
      ∀ pe ∈ (reduceDegreeF n n ((factorList r).map (fun pe => (pe.1, pe.2 % n)))).2,
        pe.1.Prime := by
    rw [hres2]
    intro pe hpe
    obtain ⟨q, hq, rfl⟩ := List.mem_map.mp hpe
    exact hf1keys q hq
  have hr'pos :
      0 < listProd (reduceDegreeF n n ((factorList r).map (fun pe => (pe.1, pe.2 % n)))).2 :=
    listProd_pos fun pe hpe => (hresPrime pe hpe).pos
  have hn'dvd : (reduceDegreeF n n ((factorList r).map (fun pe => (pe.1, pe.2 % n)))).1 ∣ n := by
    rw [hres1]; exact Nat.div_dvd_of_dvd hDn
  have hn'pos : 1 ≤ (reduceDegreeF n n ((factorList r).map (fun pe => (pe.1, pe.2 % n)))).1 := by
    rw [hres1]; exact Nat.div_pos (Nat.le_of_dvd (by omega) hDn) hD
  have hDeq : n / (reduceDegreeF n n ((factorList r).map (fun pe => (pe.1, pe.2 % n)))).1 = D := by
    rw [hres1]; exact Nat.div_div_self hDn (by omega)
  have hN : (((reduceDegreeF n n ((factorList r).map (fun pe => (pe.1, pe.2 % n)))).2).map
      (·.1)).Nodup := by
    rw [hresKeys]; exact factorList_keys_nodup r
  -- round trip
  have hsn : (listProd ((factorList r).map (fun pe => (pe.1, pe.2 / n)))) ^ n
      = listProd ((factorList r).map (fun pe => (pe.1, pe.2 / n * n))) := by
    rw [listProd_pow, List.map_map]; rfl
  have hr'D : (listProd (reduceDegreeF n n
        ((factorList r).map (fun pe => (pe.1, pe.2 % n)))).2) ^ D
      = listProd ((factorList r).map (fun pe => (pe.1, pe.2 % n))) := by
    rw [listProd_pow, hres2, List.map_map]
    apply congrArg listProd
    have hcg : List.map ((fun pe => (pe.1, pe.2 * D)) ∘ fun pe : ℕ × ℕ => (pe.1, pe.2 / D))
        (List.map (fun pe : ℕ × ℕ => (pe.1, pe.2 % n)) (factorList r))
        = List.map (fun pe => pe)
            (List.map (fun pe : ℕ × ℕ => (pe.1, pe.2 % n)) (factorList r)) := by
      apply List.map_congr_left
      intro pe hpe
      simp only [Function.comp]
      rw [Nat.div_mul_cancel (hDe pe hpe)]
    rw [hcg, List.map_id']
  have hround : (listProd ((factorList r).map (fun pe => (pe.1, pe.2 / n)))) ^ n *
      (listProd (reduceDegreeF n n ((factorList r).map (fun pe => (pe.1, pe.2 % n)))).2)
        ^ (n / (reduceDegreeF n n ((factorList r).map (fun pe => (pe.1, pe.2 % n)))).1) = r := by
    rw [hDeq, hr'D, hsn,
      listProd_mul_same (factorList r) (fun pe => pe.2 / n * n) (fun pe => pe.2 % n)]
    have hid : (factorList r).map (fun pe => (pe.1, pe.2 / n * n + pe.2 % n))
        = (factorList r).map (fun pe => pe) := by
      apply List.map_congr_left
      intro pe _
      rw [Nat.div_add_mod']
    rw [hid, List.map_id']
    exact listProd_factorList (by omega)
  -- exponent bound
  have hexp : ∀ q,
      (listProd (reduceDegreeF n n
        ((factorList r).map (fun pe => (pe.1, pe.2 % n)))).2).factorization q
      < (reduceDegreeF n n ((factorList r).map (fun pe => (pe.1, pe.2 % n)))).1 := by
    intro q
    rw [factorization_listProd hresPrime q]
    by_cases hmem : q ∈ ((reduceDegreeF n n
        ((factorList r).map (fun pe => (pe.1, pe.2 % n)))).2).map (·.1)
    · obtain ⟨pe, hpe, rfl⟩ := List.mem_map.mp hmem
      have hval : expAt (reduceDegreeF n n
          ((factorList r).map (fun pe => (pe.1, pe.2 % n)))).2 pe.1 = pe.2 :=
        expAt_nodup_mem hN (by simpa using hpe)
      rw [hval]
      rw [hres2] at hpe
      obtain ⟨q1, hq1, hq1e⟩ := List.mem_map.mp hpe
      obtain ⟨q0, _, rfl⟩ := List.mem_map.mp hq1
      have : pe.2 = q0.2 % n / D := by rw [← hq1e]
      rw [this, hres1]
      exact Nat.div_lt_div_of_lt_of_dvd hDn (Nat.mod_lt _ (by omega))
    · rw [expAt_eq_zero hmem]
      omega
  -- minimality of the degree
  have hmin : ∀ m, m ∣ (reduceDegreeF n n
        ((factorList r).map (fun pe => (pe.1, pe.2 % n)))).1 →
      (∀ pe ∈ factorList (listProd (reduceDegreeF n n
        ((factorList r).map (fun pe => (pe.1, pe.2 % n)))).2), m ∣ pe.2) → m = 1 := by
    intro m hm1 hm2
    have hdg : m ∣ gcdFoldN (reduceDegreeF n n
        ((factorList r).map (fun pe => (pe.1, pe.2 % n)))).1
        (((reduceDegreeF n n ((factorList r).map (fun pe => (pe.1, pe.2 % n)))).2).map
          (·.2)) := by
      apply dvd_gcdFoldN hm1
      intro e he
      obtain ⟨pe, hpe, rfl⟩ := List.mem_map.mp he
      rcases Nat.eq_zero_or_pos pe.2 with h0 | hpos
      · rw [h0]; exact dvd_zero m
      · have hkey : (listProd (reduceDegreeF n n
            ((factorList r).map (fun pe => (pe.1, pe.2 % n)))).2).factorization pe.1
            = pe.2 := by
          rw [factorization_listProd hresPrime]
          exact expAt_nodup_mem hN (by simpa using hpe)
        have hpdvd : pe.1 ∣ listProd (reduceDegreeF n n
            ((factorList r).map (fun pe => (pe.1, pe.2 % n)))).2 := by
          by_contra hnd
          have := (Nat.factorization_eq_zero_iff _ _).mpr (Or.inr (Or.inl hnd))
          omega
        have hmem2 := mk_mem_factorList (hresPrime pe hpe) hpdvd hr'pos.ne'
        rw [hkey] at hmem2
        exact hm2 _ hmem2
    rw [hgcd] at hdg
    exact Nat.dvd_one.mp hdg
  -- idempotence
  have hkeyexp : ∀ pe ∈ factorList (listProd (reduceDegreeF n n
      ((factorList r).map (fun pe => (pe.1, pe.2 % n)))).2),
      pe.2 < (reduceDegreeF n n ((factorList r).map (fun pe => (pe.1, pe.2 % n)))).1 := by
    intro pe hpe
    obtain ⟨_, _, _, he, _⟩ := mem_factorList hpe
    rw [he]
    exact hexp pe.1
  have hidem : simplify_radical
      (reduceDegreeF n n ((factorList r).map (fun pe => (pe.1, pe.2 % n)))).1
      (listProd (reduceDegreeF n n ((factorList r).map (fun pe => (pe.1, pe.2 % n)))).2)
      = (1, (reduceDegreeF n n ((factorList r).map (fun pe => (pe.1, pe.2 % n)))).1,
         listProd (reduceDegreeF n n ((factorList r).map (fun pe => (pe.1, pe.2 % n)))).2) := by
    have hs1 : listProd ((factorList (listProd (reduceDegreeF n n
        ((factorList r).map (fun pe => (pe.1, pe.2 % n)))).2)).map
          (fun pe => (pe.1, pe.2 / (reduceDegreeF n n
            ((factorList r).map (fun pe => (pe.1, pe.2 % n)))).1))) = 1 := by
      have hcongr : (factorList (listProd (reduceDegreeF n n
          ((factorList r).map (fun pe => (pe.1, pe.2 % n)))).2)).map
            (fun pe => (pe.1, pe.2 / (reduceDegreeF n n
              ((factorList r).map (fun pe => (pe.1, pe.2 % n)))).1))
          = (factorList (listProd (reduceDegreeF n n
            ((factorList r).map (fun pe => (pe.1, pe.2 % n)))).2)).map
              (fun pe => (pe.1, 0)) :=
        List.map_congr_left fun pe hpe => by rw [Nat.div_eq_of_lt (hkeyexp pe hpe)]
      rw [hcongr, listProd_exp_zero]
    have hmod : (factorList (listProd (reduceDegreeF n n
        ((factorList r).map (fun pe => (pe.1, pe.2 % n)))).2)).map
          (fun pe => (pe.1, pe.2 % (reduceDegreeF n n
            ((factorList r).map (fun pe => (pe.1, pe.2 % n)))).1))
        = factorList (listProd (reduceDegreeF n n
            ((factorList r).map (fun pe => (pe.1, pe.2 % n)))).2) := by
      have : (factorList (listProd (reduceDegreeF n n
          ((factorList r).map (fun pe => (pe.1, pe.2 % n)))).2)).map
            (fun pe => (pe.1, pe.2 % (reduceDegreeF n n
              ((factorList r).map (fun pe => (pe.1, pe.2 % n)))).1))
          = (factorList (listProd (reduceDegreeF n n
            ((factorList r).map (fun pe => (pe.1, pe.2 % n)))).2)).map (fun pe => pe) :=
        List.map_congr_left fun pe hpe => by rw [Nat.mod_eq_of_lt (hkeyexp pe hpe)]
      rw [this, List.map_id']
    have hloop : reduceDegreeF
        (reduceDegreeF n n ((factorList r).map (fun pe => (pe.1, pe.2 % n)))).1
        (reduceDegreeF n n ((factorList r).map (fun pe => (pe.1, pe.2 % n)))).1
        (factorList (listProd (reduceDegreeF n n
          ((factorList r).map (fun pe => (pe.1, pe.2 % n)))).2))
        = ((reduceDegreeF n n ((factorList r).map (fun pe => (pe.1, pe.2 % n)))).1,
           factorList (listProd (reduceDegreeF n n
             ((factorList r).map (fun pe => (pe.1, pe.2 % n)))).2)) := by
      obtain ⟨k, hk⟩ : ∃ k, (reduceDegreeF n n
          ((factorList r).map (fun pe => (pe.1, pe.2 % n)))).1 = k + 1 :=
        ⟨(reduceDegreeF n n ((factorList r).map (fun pe => (pe.1, pe.2 % n)))).1 - 1,
          by omega⟩
      have hg1 : gcdFoldN (reduceDegreeF n n
          ((factorList r).map (fun pe => (pe.1, pe.2 % n)))).1
          ((factorList (listProd (reduceDegreeF n n
            ((factorList r).map (fun pe => (pe.1, pe.2 % n)))).2)).map (·.2)) = 1 := by
        apply hmin
        · exact gcdFoldN_dvd_init _ _
        · intro pe hpe
          exact gcdFoldN_dvd_mem _ _ _ (List.mem_map.mpr ⟨pe, hpe, rfl⟩)
      rw [hk] at hg1 ⊢
      simp only [reduceDegreeF]
      rw [if_neg (by rw [hg1]; omega)]
    rw [show simplify_radical
        (reduceDegreeF n n ((factorList r).map (fun pe => (pe.1, pe.2 % n)))).1
        (listProd (reduceDegreeF n n ((factorList r).map (fun pe => (pe.1, pe.2 % n)))).2)
      = (listProd ((factorList (listProd (reduceDegreeF n n
            ((factorList r).map (fun pe => (pe.1, pe.2 % n)))).2)).map
              (fun pe => (pe.1, pe.2 / (reduceDegreeF n n
                ((factorList r).map (fun pe => (pe.1, pe.2 % n)))).1))),
         (reduceDegreeF
           (reduceDegreeF n n ((factorList r).map (fun pe => (pe.1, pe.2 % n)))).1
           (reduceDegreeF n n ((factorList r).map (fun pe => (pe.1, pe.2 % n)))).1
           ((factorList (listProd (reduceDegreeF n n
             ((factorList r).map (fun pe => (pe.1, pe.2 % n)))).2)).map
               (fun pe => (pe.1, pe.2 % (reduceDegreeF n n
                 ((factorList r).map (fun pe => (pe.1, pe.2 % n)))).1)))).1,
         listProd (reduceDegreeF
           (reduceDegreeF n n ((factorList r).map (fun pe => (pe.1, pe.2 % n)))).1
           (reduceDegreeF n n ((factorList r).map (fun pe => (pe.1, pe.2 % n)))).1
           ((factorList (listProd (reduceDegreeF n n
             ((factorList r).map (fun pe => (pe.1, pe.2 % n)))).2)).map
               (fun pe => (pe.1, pe.2 % (reduceDegreeF n n
                 ((factorList r).map (fun pe => (pe.1, pe.2 % n)))).1)))).2) from rfl]
    rw [hmod, hloop, hs1]
    exact congrArg (fun z => ((1 : ℕ), (reduceDegreeF n n
      ((factorList r).map (fun pe => (pe.1, pe.2 % n)))).1, z))
      (listProd_factorList hr'pos.ne')
  exact ⟨hn'dvd, hn'pos, hr'pos, hround, hexp, hmin, hidem⟩

/-! ### Generic canonicalisation pipeline

Both constructors (`SqrtFraction.__init__`, lines 52–68 of sqrtfractions.py,
and `SumOfRadicals.__init__`, lines 74–89 of sumofradicals.py) share the same
shape: accumulate reduced terms into a dict, drop zero coefficients, shorten
the fraction by the running gcd, normalise the sign into the numerator, and
sort by key.  Python dicts are embedded as association lists in insertion
order; `κ` is the key type (`ℕ` radicands, or `(ℕ × ℕ)` degree/radicand
pairs). -/

section CanonMachinery

variable {κ : Type} [DecidableEq κ]

/-- `_n[k] += v` on an association list (insertion order preserved, matching
Python `defaultdict`). -/
def addTerm (k : κ) (v : ℤ) : List (κ × ℤ) → List (κ × ℤ)
  | [] => [(k, v)]
  | kv :: t => if kv.1 = k then (kv.1, kv.2 + v) :: t else kv :: addTerm k v t

/-- `dict.get(k, 0)` (summing duplicates, which never occur after `addTerm`). -/
def lookupCoeff (k : κ) : List (κ × ℤ) → ℤ
  | [] => 0
  | kv :: t => (if kv.1 = k then kv.2 else 0) + lookupCoeff k t

/-- The term-reduction/accumulation loop of the constructors:
`for k, v in n.items(): (s, k') = red(k); _n[k'] += s * v`. -/
def accumulate (red : κ → ℤ × κ) (l : List (κ × ℤ)) : List (κ × ℤ) :=
  l.foldl (fun acc kv => addTerm (red kv.1).2 ((red kv.1).1 * kv.2) acc) []

/-- `gcd(*n.values(), d)` (Python's gcd of integers is the nonnegative gcd). -/
def gcdAll (l : List (κ × ℤ)) (d : ℤ) : ℕ :=
  l.foldr (fun kv g => Nat.gcd kv.2.natAbs g) d.natAbs

/-- The `while (cd := gcd(*n.values(), d)) > 1` loop with structural fuel
(each pass divides `|d|` by `cd ≥ 2`, so fuel `|d|` suffices; exact division
makes Python's floor `//` agree with `Int` division). -/
def shortFracF : ℕ → List (κ × ℤ) → ℤ → List (κ × ℤ) × ℤ
  | 0, l, d => (l, d)
  | fuel+1, l, d =>
    let cd := gcdAll l d
    if 1 < cd then
      shortFracF fuel (l.map (fun kv => (kv.1, kv.2 / (cd : ℤ)))) (d / (cd : ℤ))
    else (l, d)

/-- Ordered insertion used to model `sorted(n.items())` (keys are distinct,
so any stable sort gives the same result). -/
def insertKey (le : κ → κ → Bool) (kv : κ × ℤ) : List (κ × ℤ) → List (κ × ℤ)
  | [] => [kv]
  | h :: t => if le kv.1 h.1 then kv :: h :: t else h :: insertKey le kv t

/-- Insertion sort by key. -/
def sortKeys (le : κ → κ → Bool) : List (κ × ℤ) → List (κ × ℤ)
  | [] => []
  | h :: t => insertKey le h (sortKeys le t)

/-- The whole canonicalisation pipeline shared by both constructors. -/
def canonAux (red : κ → ℤ × κ) (le : κ → κ → Bool) (l : List (κ × ℤ)) (d : ℤ) :
    List (κ × ℤ) × ℤ :=
  let a := (accumulate red l).filter (fun kv => decide (kv.2 ≠ 0))
  let b := shortFracF d.natAbs a d
  let c := if b.2 < 0 then (b.1.map (fun kv => (kv.1, -kv.2)), -b.2) else b
  (sortKeys le c.1, c.2)

/-- Real-number value of a numerator list, for a weight `w` interpreting each
key (`w r = √r` for `SqrtFraction`). -/
noncomputable def valList (w : κ → ℝ) (l : List (κ × ℤ)) : ℝ :=
  (l.map (fun kv => (kv.2 : ℝ) * w kv.1)).sum

lemma lookupCoeff_addTerm (k q : κ) (v : ℤ) (l : List (κ × ℤ)) :
    lookupCoeff q (addTerm k v l) = lookupCoeff q l + (if k = q then v else 0) := by
  induction l with
  | nil => simp [addTerm, lookupCoeff]
  | cons kv t ih =>
    by_cases h : kv.1 = k
    · simp only [addTerm, if_pos h, lookupCoeff]
      by_cases hq : kv.1 = q
      · rw [if_pos hq, if_pos hq, if_pos (h ▸ hq)]
        push_cast
        ring
      · rw [if_neg hq, if_neg hq, if_neg (fun he => hq (h.trans he))]
        ring
    · simp only [addTerm, if_neg h, lookupCoeff, ih]
      ring

lemma mem_keys_addTerm {q k : κ} {v : ℤ} {l : List (κ × ℤ)} :
    q ∈ (addTerm k v l).map (·.1) ↔ q ∈ l.map (·.1) ∨ q = k := by
  induction l with
  | nil => simp [addTerm]
  | cons kv t ih =>
    by_cases h : kv.1 = k
    · simp only [addTerm, if_pos h, List.map_cons, List.mem_cons]
      constructor
      · rintro (rfl | hm)
        · exact Or.inl (Or.inl rfl)
        · exact Or.inl (Or.inr hm)
      · rintro ((rfl | hm) | rfl)
        · exact Or.inl rfl
        · exact Or.inr hm
        · exact Or.inl h.symm
    · simp only [addTerm, if_neg h, List.map_cons, List.mem_cons, ih]
      tauto

lemma nodup_keys_addTerm {k : κ} {v : ℤ} {l : List (κ × ℤ)}
    (h : (l.map (·.1)).Nodup) : ((addTerm k v l).map (·.1)).Nodup := by
  induction l with
  | nil => simp [addTerm]
  | cons kv t ih =>
    simp only [List.map_cons, List.nodup_cons] at h
    by_cases hk : kv.1 = k
    · simp only [addTerm, if_pos hk, List.map_cons, List.nodup_cons]
      exact ⟨h.1, h.2⟩
    · simp only [addTerm, if_neg hk, List.map_cons, List.nodup_cons]
      refine ⟨fun hm => ?_, ih h.2⟩
      rcases mem_keys_addTerm.mp hm with hm | rfl
      · exact h.1 hm
      · exact hk rfl

lemma valList_nil (w : κ → ℝ) : valList w [] = 0 := by simp [valList]

lemma valList_cons (w : κ → ℝ) (kv : κ × ℤ) (t : List (κ × ℤ)) :
    valList w (kv :: t) = (kv.2 : ℝ) * w kv.1 + valList w t := by simp [valList]

lemma valList_addTerm (w : κ → ℝ) (k : κ) (v : ℤ) (l : List (κ × ℤ)) :
    valList w (addTerm k v l) = valList w l + (v : ℝ) * w k := by
  induction l with
  | nil => simp [addTerm, valList]
  | cons kv t ih =>
    by_cases h : kv.1 = k
    · simp only [addTerm, if_pos h, valList_cons]
      rw [h]
      push_cast
      ring
    · simp only [addTerm, if_neg h, valList_cons, ih]
      ring

lemma valList_foldl_addTerm (w : κ → ℝ) (F : κ × ℤ → κ) (G : κ × ℤ → ℤ) :
    ∀ (l : List (κ × ℤ)) (init : List (κ × ℤ)),
      valList w (l.foldl (fun acc kv => addTerm (F kv) (G kv) acc) init)
        = valList w init + (l.map (fun kv => (G kv : ℝ) * w (F kv))).sum := by
  intro l
  induction l with
  | nil => intro init; simp
  | cons a t ih =>
    intro init
    simp only [List.foldl_cons, List.map_cons, List.sum_cons]
    rw [ih, valList_addTerm]
    ring

lemma keys_foldl_addTerm_mem (F : κ × ℤ → κ) (G : κ × ℤ → ℤ) :
    ∀ (l : List (κ × ℤ)) (init : List (κ × ℤ)) (q : κ),
      q ∈ ((l.foldl (fun acc kv => addTerm (F kv) (G kv) acc) init).map (·.1)) →
      q ∈ init.map (·.1) ∨ ∃ kv ∈ l, q = F kv := by
  intro l
  induction l with
  | nil => intro init q h; exact Or.inl h
  | cons a t ih =>
    intro init q h
    rw [List.foldl_cons] at h
    rcases ih _ q h with hin | ⟨kv, hkv, rfl⟩
    · rcases mem_keys_addTerm.mp hin with hm | rfl
      · exact Or.inl hm
      · exact Or.inr ⟨a, List.mem_cons_self _ _, rfl⟩
    · exact Or.inr ⟨kv, List.mem_cons_of_mem _ hkv, rfl⟩

lemma nodup_keys_foldl_addTerm (F : κ × ℤ → κ) (G : κ × ℤ → ℤ) :
    ∀ (l : List (κ × ℤ)) (init : List (κ × ℤ)),
      (init.map (·.1)).Nodup →
      ((l.foldl (fun acc kv => addTerm (F kv) (G kv) acc) init).map (·.1)).Nodup := by
  intro l
  induction l with
  | nil => intro init h; exact h
  | cons a t ih =>
    intro init h
    rw [List.foldl_cons]
    exact ih _ (nodup_keys_addTerm h)

lemma lookupCoeff_foldl_addTerm (F : κ × ℤ → κ) (G : κ × ℤ → ℤ) :
    ∀ (l : List (κ × ℤ)) (init : List (κ × ℤ)) (q : κ),
      lookupCoeff q (l.foldl (fun acc kv => addTerm (F kv) (G kv) acc) init)
        = lookupCoeff q init + (l.map (fun kv => if F kv = q then G kv else 0)).sum := by
  intro l
  induction l with
  | nil => intro init q; simp
  | cons a t ih =>
    intro init q
    simp only [List.foldl_cons, List.map_cons, List.sum_cons]
    rw [ih, lookupCoeff_addTerm]
    ring

lemma accumulate_keys {red : κ → ℤ × κ} {l : List (κ × ℤ)} {q : κ}
    (h : q ∈ (accumulate red l).map (·.1)) : ∃ kv ∈ l, q = (red kv.1).2 := by
  rcases keys_foldl_addTerm_mem _ _ l [] q h with hin | hex
  · simp at hin
  · exact hex

lemma accumulate_nodup (red : κ → ℤ × κ) (l : List (κ × ℤ)) :
    ((accumulate red l).map (·.1)).Nodup :=
  nodup_keys_foldl_addTerm _ _ l [] (by simp)

lemma valList_accumulate (w : κ → ℝ) (red : κ → ℤ × κ)
    (hred : ∀ k, (((red k).1 : ℤ) : ℝ) * w ((red k).2) = w k) (l : List (κ × ℤ)) :
    valList w (accumulate red l) = valList w l := by
  rw [accumulate, valList_foldl_addTerm, valList_nil, zero_add]
  rw [valList]
  apply congrArg List.sum
  apply List.map_congr_left
  intro kv _
  push_cast
  rw [mul_comm ((red kv.1).1 : ℝ) (kv.2 : ℝ), mul_assoc, hred kv.1]

lemma lookupCoeff_accumulate (red : κ → ℤ × κ) (l : List (κ × ℤ)) (q : κ) :
    lookupCoeff q (accumulate red l)
      = (l.map (fun kv => if (red kv.1).2 = q then (red kv.1).1 * kv.2 else 0)).sum := by
  rw [accumulate, lookupCoeff_foldl_addTerm]
  simp [lookupCoeff]

lemma valList_filter_nz (w : κ → ℝ) (l : List (κ × ℤ)) :
    valList w (l.filter (fun kv => decide (kv.2 ≠ 0))) = valList w l := by
  induction l with
  | nil => rfl
  | cons kv t ih =>
    by_cases h : kv.2 = 0
    · rw [List.filter_cons, if_neg (by simp [h]), valList_cons, ih, h]
      simp
    · rw [List.filter_cons, if_pos (by simp [h]), valList_cons, valList_cons, ih]

lemma gcdAll_eq_gcdFoldN (l : List (κ × ℤ)) (d : ℤ) :
    gcdAll l d = gcdFoldN d.natAbs (l.map (fun kv => kv.2.natAbs)) := by
  rw [gcdAll, gcdFoldN, List.foldr_map]

lemma natCast_dvd_iff (m : ℕ) (z : ℤ) : ((m : ℤ) ∣ z) ↔ m ∣ z.natAbs := by
  rw [← Int.dvd_natAbs, Int.natCast_dvd_natCast]

lemma gcdAll_dvd_d (l : List (κ × ℤ)) (d : ℤ) : ((gcdAll l d : ℕ) : ℤ) ∣ d := by
  rw [natCast_dvd_iff, gcdAll_eq_gcdFoldN]
  exact gcdFoldN_dvd_init _ _

lemma gcdAll_dvd_coeff (l : List (κ × ℤ)) (d : ℤ) :
    ∀ kv ∈ l, ((gcdAll l d : ℕ) : ℤ) ∣ kv.2 := by
  intro kv hkv
  rw [natCast_dvd_iff, gcdAll_eq_gcdFoldN]
  exact gcdFoldN_dvd_mem _ _ _ (List.mem_map.mpr ⟨kv, hkv, rfl⟩)

lemma gcdAll_pos {l : List (κ × ℤ)} {d : ℤ} (hd : d ≠ 0) : 0 < gcdAll l d := by
  rcases Nat.eq_zero_or_pos (gcdAll l d) with h0 | hpos
  · exfalso
    have := gcdAll_dvd_d l d
    rw [h0] at this
    exact hd (zero_dvd_iff.mp (by exact_mod_cast this))
  · exact hpos

lemma dvd_gcdAll {l : List (κ × ℤ)} {d : ℤ} {c : ℕ}
    (hc : (c : ℤ) ∣ d) (h : ∀ kv ∈ l, (c : ℤ) ∣ kv.2) : c ∣ gcdAll l d := by
  rw [gcdAll_eq_gcdFoldN]
  apply dvd_gcdFoldN ((natCast_dvd_iff c d).mp hc)
  intro e he
  obtain ⟨kv, hkv, rfl⟩ := List.mem_map.mp he
  exact (natCast_dvd_iff c kv.2).mp (h kv hkv)

lemma shortFracF_spec : ∀ (fuel : ℕ) (l : List (κ × ℤ)) (d : ℤ), d ≠ 0 → d.natAbs ≤ fuel →
    ∃ c : ℤ, 0 < c ∧
      l = (shortFracF fuel l d).1.map (fun kv => (kv.1, kv.2 * c)) ∧
      d = (shortFracF fuel l d).2 * c ∧
      gcdAll (shortFracF fuel l d).1 (shortFracF fuel l d).2 = 1 ∧
      (shortFracF fuel l d).2 ≠ 0 := by
  intro fuel
  induction fuel with
  | zero =>
    intro l d hd hf
    exact absurd (Int.natAbs_eq_zero.mp (Nat.le_zero.mp hf)) hd
  | succ fuel ih =>
    intro l d hd hf
    simp only [shortFracF]
    by_cases hcd : 1 < gcdAll l d
    · rw [if_pos hcd]
      have hdvd_d : ((gcdAll l d : ℕ) : ℤ) ∣ d := gcdAll_dvd_d l d
      have hd' : d / (gcdAll l d : ℤ) ≠ 0 := by
        intro h0
        have := Int.ediv_mul_cancel hdvd_d
        rw [h0, zero_mul] at this
        exact hd this.symm
      have habs : (d / (gcdAll l d : ℤ)).natAbs * gcdAll l d = d.natAbs := by
        have := Int.ediv_mul_cancel hdvd_d
        calc (d / (gcdAll l d : ℤ)).natAbs * gcdAll l d
            = (d / (gcdAll l d : ℤ) * (gcdAll l d : ℤ)).natAbs := by
              rw [Int.natAbs_mul]; simp
          _ = d.natAbs := by rw [this]
      have hfuel' : (d / (gcdAll l d : ℤ)).natAbs ≤ fuel := by
        have h2 : 2 * (d / (gcdAll l d : ℤ)).natAbs ≤ d.natAbs := by
          calc 2 * (d / (gcdAll l d : ℤ)).natAbs
              ≤ (d / (gcdAll l d : ℤ)).natAbs * gcdAll l d := by
                rw [mul_comm]
                exact Nat.mul_le_mul_left _ (by omega)
            _ = d.natAbs := habs
        have hpos' : 0 < (d / (gcdAll l d : ℤ)).natAbs := by
          rcases Nat.eq_zero_or_pos (d / (gcdAll l d : ℤ)).natAbs with h0 | h
          · exact absurd (Int.natAbs_eq_zero.mp h0) hd'
          · exact h
        omega
      obtain ⟨c, hc, hl, hdq, hg, hne⟩ :=
        ih (l.map (fun kv => (kv.1, kv.2 / (gcdAll l d : ℤ)))) (d / (gcdAll l d : ℤ)) hd' hfuel'
      refine ⟨c * (gcdAll l d : ℤ), by positivity, ?_, ?_, hg, hne⟩
      · have hstep : (l.map (fun kv => (kv.1, kv.2 / (gcdAll l d : ℤ)))).map
            (fun kv => (kv.1, kv.2 * (gcdAll l d : ℤ))) = l := by
          rw [List.map_map]
          have : ∀ kv ∈ l, ((fun kv : κ × ℤ => (kv.1, kv.2 * (gcdAll l d : ℤ))) ∘
              fun kv : κ × ℤ => (kv.1, kv.2 / (gcdAll l d : ℤ))) kv = kv := by
            intro kv hkv
            simp only [Function.comp]
            rw [Int.ediv_mul_cancel (gcdAll_dvd_coeff l d kv hkv)]
          rw [List.map_congr_left this, List.map_id']
        calc l = (l.map (fun kv => (kv.1, kv.2 / (gcdAll l d : ℤ)))).map
              (fun kv => (kv.1, kv.2 * (gcdAll l d : ℤ))) := hstep.symm
          _ = (((shortFracF fuel (l.map (fun kv => (kv.1, kv.2 / (gcdAll l d : ℤ))))
                (d / (gcdAll l d : ℤ))).1.map (fun kv => (kv.1, kv.2 * c))).map
                  (fun kv => (kv.1, kv.2 * (gcdAll l d : ℤ)))) := by rw [← hl]
          _ = _ := by
            rw [List.map_map]
            apply List.map_congr_left
            intro kv _
            simp only [Function.comp]
            rw [mul_assoc]
      · calc d = d / (gcdAll l d : ℤ) * (gcdAll l d : ℤ) := (Int.ediv_mul_cancel hdvd_d).symm
          _ = (shortFracF fuel (l.map (fun kv => (kv.1, kv.2 / (gcdAll l d : ℤ))))
                (d / (gcdAll l d : ℤ))).2 * c * (gcdAll l d : ℤ) := by rw [← hdq]
          _ = _ := by rw [mul_assoc]
    · rw [if_neg hcd]
      have hgpos : 0 < gcdAll l d := gcdAll_pos hd
      have hg1 : gcdAll l d = 1 := by omega
      refine ⟨1, one_pos, ?_, by rw [mul_one], hg1, hd⟩
      have : l.map (fun kv => (kv.1, kv.2 * 1)) = l.map (fun kv => kv) :=
        List.map_congr_left fun kv _ => by rw [mul_one]
      rw [this, List.map_id']

lemma mem_insertKey (le : κ → κ → Bool) (kv y : κ × ℤ) (l : List (κ × ℤ)) :
    y ∈ insertKey le kv l ↔ y = kv ∨ y ∈ l := by
  induction l with
  | nil => simp [insertKey]
  | cons h t ih =>
    by_cases hle : le kv.1 h.1
    · rw [insertKey, if_pos hle]
      simp only [List.mem_cons]
    · rw [insertKey, if_neg hle]
      simp only [List.mem_cons, ih]
      tauto

lemma insertKey_perm (le : κ → κ → Bool) (kv : κ × ℤ) (l : List (κ × ℤ)) :
    (insertKey le kv l).Perm (kv :: l) := by
  induction l with
  | nil => simp [insertKey]
  | cons h t ih =>
    by_cases hle : le kv.1 h.1
    · rw [insertKey, if_pos hle]
    · rw [insertKey, if_neg hle]
      exact (List.Perm.cons h ih).trans (List.Perm.swap kv h t)

lemma sortKeys_perm (le : κ → κ → Bool) (l : List (κ × ℤ)) :
    (sortKeys le l).Perm l := by
  induction l with
  | nil => simp [sortKeys]
  | cons h t ih =>
    exact (insertKey_perm le h (sortKeys le t)).trans (List.Perm.cons h ih)

lemma insertKey_pairwise (le : κ → κ → Bool)
    (htot : ∀ a b, le a b = true ∨ le b a = true)
    (htr : ∀ a b c, le a b = true → le b c = true → le a c = true)
    (kv : κ × ℤ) (l : List (κ × ℤ))
    (h : List.Pairwise (fun x y : κ × ℤ => le x.1 y.1 = true) l) :
    List.Pairwise (fun x y : κ × ℤ => le x.1 y.1 = true) (insertKey le kv l) := by
  induction l with
  | nil => simp [insertKey]
  | cons a t ih =>
    rcases List.pairwise_cons.mp h with ⟨ha, ht⟩
    by_cases hle : le kv.1 a.1
    · rw [insertKey, if_pos hle]
      apply List.pairwise_cons.mpr
      refine ⟨?_, h⟩
      intro y hy
      rcases List.mem_cons.mp hy with rfl | hmem
      · exact hle
      · exact htr _ _ _ hle (ha y hmem)
    · rw [insertKey, if_neg hle]
      apply List.pairwise_cons.mpr
      constructor
      · intro y hy
        rcases (mem_insertKey le kv y t).mp hy with rfl | hmem
        · rcases htot y.1 a.1 with h1 | h1
          · exact absurd h1 (by simpa using hle)
          · exact h1
        · exact ha y hmem
      · exact ih ht

lemma sortKeys_pairwise (le : κ → κ → Bool)
    (htot : ∀ a b, le a b = true ∨ le b a = true)
    (htr : ∀ a b c, le a b = true → le b c = true → le a c = true)
    (l : List (κ × ℤ)) :
    List.Pairwise (fun x y : κ × ℤ => le x.1 y.1 = true) (sortKeys le l) := by
  induction l with
  | nil => simp [sortKeys]
  | cons h t ih => exact insertKey_pairwise le htot htr h _ ih

lemma keys_map_coeff (l : List (κ × ℤ)) (h : κ × ℤ → ℤ) :
    (l.map (fun kv => (kv.1, h kv))).map (·.1) = l.map (·.1) := by
  rw [List.map_map]; rfl

lemma gcdAll_perm {l1 l2 : List (κ × ℤ)} (hp : l1.Perm l2) (d : ℤ) :
    gcdAll l1 d = gcdAll l2 d := by
  rw [gcdAll_eq_gcdFoldN, gcdAll_eq_gcdFoldN, gcdFoldN, gcdFoldN]
  haveI hlc : LeftCommutative (Nat.gcd : ℕ → ℕ → ℕ) := ⟨fun a b c => by
    rw [← Nat.gcd_assoc, Nat.gcd_comm a b, Nat.gcd_assoc]⟩
  exact List.Perm.foldr_eq (hp.map _) _

lemma gcdAll_neg (l : List (κ × ℤ)) (d : ℤ) :
    gcdAll (l.map (fun kv => (kv.1, -kv.2))) (-d) = gcdAll l d := by
  rw [gcdAll_eq_gcdFoldN, gcdAll_eq_gcdFoldN, List.map_map]
  have h1 : ((-d).natAbs) = d.natAbs := Int.natAbs_neg d
  rw [h1]
  apply congrArg (gcdFoldN d.natAbs)
  apply List.map_congr_left
  intro kv _
  simp [Function.comp]

lemma valList_perm (w : κ → ℝ) {l1 l2 : List (κ × ℤ)} (hp : l1.Perm l2) :
    valList w l1 = valList w l2 :=
  List.Perm.sum_eq (hp.map _)

lemma valList_map_neg (w : κ → ℝ) (l : List (κ × ℤ)) :
    valList w (l.map (fun kv => (kv.1, -kv.2))) = -valList w l := by
  induction l with
  | nil => simp [valList]
  | cons kv t ih =>
    simp only [List.map_cons, valList_cons, ih]
    push_cast
    ring

lemma valList_map_mul (w : κ → ℝ) (l : List (κ × ℤ)) (c : ℤ) :
    valList w (l.map (fun kv => (kv.1, kv.2 * c))) = valList w l * (c : ℝ) := by
  induction l with
  | nil => simp [valList]
  | cons kv t ih =>
    simp only [List.map_cons, valList_cons, ih]
    push_cast
    ring

/-- Structural invariants of the canonicalisation pipeline: for `d ≠ 0` the
result has a positive denominator, overall gcd 1, no zero coefficients, keys
in the image of the reducer (with a source term in the input), distinct keys,
and keys sorted by `le`. -/
lemma canonAux_spec (red : κ → ℤ × κ) (le : κ → κ → Bool)
    (htot : ∀ a b, le a b = true ∨ le b a = true)
    (htr : ∀ a b c, le a b = true → le b c = true → le a c = true)
    (l : List (κ × ℤ)) (d : ℤ) (hd : d ≠ 0) :
    0 < (canonAux red le l d).2 ∧
    gcdAll (canonAux red le l d).1 (canonAux red le l d).2 = 1 ∧
    (∀ kv ∈ (canonAux red le l d).1, kv.2 ≠ 0) ∧
    (∀ kv ∈ (canonAux red le l d).1, ∃ kv0 ∈ l, kv.1 = (red kv0.1).2) ∧
    ((canonAux red le l d).1.map (·.1)).Nodup ∧
    List.Pairwise (fun x y : κ × ℤ => le x.1 y.1 = true) (canonAux red le l d).1 := by
  obtain ⟨c, hc, hlc, hdc, hg, hne⟩ :=
    shortFracF_spec d.natAbs ((accumulate red l).filter (fun kv => decide (kv.2 ≠ 0)))
      d hd (le_refl _)
  have hunf : canonAux red le l d
      = (sortKeys le (if (shortFracF d.natAbs
            ((accumulate red l).filter (fun kv => decide (kv.2 ≠ 0))) d).2 < 0 then
          ((shortFracF d.natAbs
            ((accumulate red l).filter (fun kv => decide (kv.2 ≠ 0))) d).1.map
              (fun kv => (kv.1, -kv.2)),
           -(shortFracF d.natAbs
            ((accumulate red l).filter (fun kv => decide (kv.2 ≠ 0))) d).2)
         else shortFracF d.natAbs
            ((accumulate red l).filter (fun kv => decide (kv.2 ≠ 0))) d).1,
         (if (shortFracF d.natAbs
            ((accumulate red l).filter (fun kv => decide (kv.2 ≠ 0))) d).2 < 0 then
          ((shortFracF d.natAbs
            ((accumulate red l).filter (fun kv => decide (kv.2 ≠ 0))) d).1.map
              (fun kv => (kv.1, -kv.2)),
           -(shortFracF d.natAbs
            ((accumulate red l).filter (fun kv => decide (kv.2 ≠ 0))) d).2)
         else shortFracF d.natAbs
            ((accumulate red l).filter (fun kv => decide (kv.2 ≠ 0))) d).2) := rfl
  -- facts about the b-stage list
  have hbcoeff : ∀ kv ∈ (shortFracF d.natAbs
      ((accumulate red l).filter (fun kv => decide (kv.2 ≠ 0))) d).1, kv.2 ≠ 0 := by
    intro kv hkv
    have hmem : (kv.1, kv.2 * c) ∈ (accumulate red l).filter (fun kv => decide (kv.2 ≠ 0)) := by
      rw [hlc]
      exact List.mem_map.mpr ⟨kv, hkv, rfl⟩
    have := List.of_mem_filter hmem
    simp only [decide_eq_true_eq] at this
    intro h0
    rw [h0, zero_mul] at this
    exact this rfl
  have hbkeys : ((accumulate red l).filter (fun kv => decide (kv.2 ≠ 0))).map (·.1)
      = ((shortFracF d.natAbs
        ((accumulate red l).filter (fun kv => decide (kv.2 ≠ 0))) d).1.map (·.1)) := by
    conv_lhs => rw [hlc]
    rw [keys_map_coeff]
  have hakeysnodup : (((accumulate red l).filter (fun kv => decide (kv.2 ≠ 0))).map
      (·.1)).Nodup :=
    List.Nodup.sublist (List.Sublist.map _ (List.filter_sublist _)) (accumulate_nodup red l)
  have hbnodup : ((shortFracF d.natAbs
      ((accumulate red l).filter (fun kv => decide (kv.2 ≠ 0))) d).1.map (·.1)).Nodup := by
    rw [← hbkeys]; exact hakeysnodup
  have hbsource : ∀ kv ∈ (shortFracF d.natAbs
      ((accumulate red l).filter (fun kv => decide (kv.2 ≠ 0))) d).1,
      ∃ kv0 ∈ l, kv.1 = (red kv0.1).2 := by
    intro kv hkv
    have hmemk : kv.1 ∈ ((accumulate red l).filter (fun kv => decide (kv.2 ≠ 0))).map (·.1) := by
      rw [hbkeys]
      exact List.mem_map.mpr ⟨kv, hkv, rfl⟩
    obtain ⟨kv1, hkv1, hkeq⟩ := List.mem_map.mp hmemk
    have : kv1 ∈ accumulate red l := List.mem_of_mem_filter hkv1
    have hk1 : kv1.1 ∈ (accumulate red l).map (·.1) := List.mem_map.mpr ⟨kv1, this, rfl⟩
    obtain ⟨kv0, hkv0, heq⟩ := accumulate_keys hk1
    exact ⟨kv0, hkv0, hkeq ▸ heq⟩
  -- the sign-normalised stage
  rw [hunf]
  by_cases hsign : (shortFracF d.natAbs
      ((accumulate red l).filter (fun kv => decide (kv.2 ≠ 0))) d).2 < 0
  · rw [if_pos hsign]
    have hperm := sortKeys_perm le ((shortFracF d.natAbs
        ((accumulate red l).filter (fun kv => decide (kv.2 ≠ 0))) d).1.map
          (fun kv => (kv.1, -kv.2)))
    refine ⟨by omega, ?_, ?_, ?_, ?_, ?_⟩
    · rw [gcdAll_perm hperm, gcdAll_neg]
      exact hg
    · intro kv hkv
      have hm := hperm.mem_iff.mp hkv
      obtain ⟨kv1, hkv1, rfl⟩ := List.mem_map.mp hm
      simpa using hbcoeff kv1 hkv1
    · intro kv hkv
      have hm := hperm.mem_iff.mp hkv
      obtain ⟨kv1, hkv1, rfl⟩ := List.mem_map.mp hm
      exact hbsource kv1 hkv1
    · have := (hperm.map (·.1)).nodup_iff.mpr (by rw [keys_map_coeff]; exact hbnodup)
      exact this
    · exact sortKeys_pairwise le htot htr _
  · rw [if_neg hsign]
    have hperm := sortKeys_perm le (shortFracF d.natAbs
        ((accumulate red l).filter (fun kv => decide (kv.2 ≠ 0))) d).1
    refine ⟨by omega, ?_, ?_, ?_, ?_, ?_⟩
    · rw [gcdAll_perm hperm]
      exact hg
    · intro kv hkv
      exact hbcoeff kv (hperm.mem_iff.mp hkv)
    · intro kv hkv
      exact hbsource kv (hperm.mem_iff.mp hkv)
    · exact (hperm.map (·.1)).nodup_iff.mpr hbnodup
    · exact sortKeys_pairwise le htot htr _

/-- The canonicalisation pipeline preserves the real value `valList/d`,
provided the reducer is value-preserving for the weight `w`. -/
lemma canonAux_val (red : κ → ℤ × κ) (le : κ → κ → Bool) (w : κ → ℝ)
    (hred : ∀ k, (((red k).1 : ℤ) : ℝ) * w ((red k).2) = w k)
    (l : List (κ × ℤ)) (d : ℤ) (hd : d ≠ 0) :
    valList w (canonAux red le l d).1 / ((canonAux red le l d).2 : ℝ)
      = valList w l / (d : ℝ) := by
  obtain ⟨c, hc, hlc, hdc, hg, hne⟩ :=
    shortFracF_spec d.natAbs ((accumulate red l).filter (fun kv => decide (kv.2 ≠ 0)))
      d hd (le_refl _)
  have hval_a : valList w ((accumulate red l).filter (fun kv => decide (kv.2 ≠ 0)))
      = valList w l := by
    rw [valList_filter_nz, valList_accumulate w red hred]
  have hab : valList w ((accumulate red l).filter (fun kv => decide (kv.2 ≠ 0)))
      = valList w (shortFracF d.natAbs
        ((accumulate red l).filter (fun kv => decide (kv.2 ≠ 0))) d).1 * (c : ℝ) := by
    conv_lhs => rw [hlc]
    rw [valList_map_mul]
  have hval_b : valList w (shortFracF d.natAbs
      ((accumulate red l).filter (fun kv => decide (kv.2 ≠ 0))) d).1 * (c : ℝ)
      = valList w l := by
    rw [← hab, hval_a]
  have hcR : (c : ℝ) ≠ 0 := by
    exact_mod_cast hc.ne'
  have hratio : valList w (shortFracF d.natAbs
        ((accumulate red l).filter (fun kv => decide (kv.2 ≠ 0))) d).1
      / ((shortFracF d.natAbs
        ((accumulate red l).filter (fun kv => decide (kv.2 ≠ 0))) d).2 : ℝ)
      = valList w l / (d : ℝ) := by
    rw [← hval_b]
    have hdR : (d : ℝ) = ((shortFracF d.natAbs
        ((accumulate red l).filter (fun kv => decide (kv.2 ≠ 0))) d).2 : ℝ) * (c : ℝ) := by
      exact_mod_cast hdc
    rw [hdR, mul_div_mul_right _ _ hcR]
  have hunf : canonAux red le l d
      = (sortKeys le (if (shortFracF d.natAbs
            ((accumulate red l).filter (fun kv => decide (kv.2 ≠ 0))) d).2 < 0 then
          ((shortFracF d.natAbs
            ((accumulate red l).filter (fun kv => decide (kv.2 ≠ 0))) d).1.map
              (fun kv => (kv.1, -kv.2)),
           -(shortFracF d.natAbs
            ((accumulate red l).filter (fun kv => decide (kv.2 ≠ 0))) d).2)
         else shortFracF d.natAbs
            ((accumulate red l).filter (fun kv => decide (kv.2 ≠ 0))) d).1,
         (if (shortFracF d.natAbs
            ((accumulate red l).filter (fun kv => decide (kv.2 ≠ 0))) d).2 < 0 then
          ((shortFracF d.natAbs
            ((accumulate red l).filter (fun kv => decide (kv.2 ≠ 0))) d).1.map
              (fun kv => (kv.1, -kv.2)),
           -(shortFracF d.natAbs
            ((accumulate red l).filter (fun kv => decide (kv.2 ≠ 0))) d).2)
         else shortFracF d.natAbs
            ((accumulate red l).filter (fun kv => decide (kv.2 ≠ 0))) d).2) := rfl
  rw [hunf]
  by_cases hsign : (shortFracF d.natAbs
      ((accumulate red l).filter (fun kv => decide (kv.2 ≠ 0))) d).2 < 0
  · rw [if_pos hsign]
    rw [valList_perm w (sortKeys_perm le _), valList_map_neg]
    push_cast
    rw [div_neg, neg_div, neg_neg]
    exact hratio
  · rw [if_neg hsign]
    rw [valList_perm w (sortKeys_perm le _)]
    exact hratio

/-- Sum of products of coefficients with arbitrary factors equals the value
of the coefficient-scaled list. -/
lemma sum_scaled_eq_valList_mul (w : κ → ℝ) (l : List (κ × ℤ)) (c : ℤ) :
    (l.map (fun kv => ((kv.2 * c : ℤ) : ℝ) * w kv.1)).sum = valList w l * (c : ℝ) := by
  rw [← valList_map_mul w l c, valList, List.map_map]
  rfl

/-- Value of the nested product loop of `__mul__` (accumulating
`n[K ki kj] += vi * vj`), for a weight multiplicative over the key
product `K`. -/
lemma valList_rawMul (w : κ → ℝ) (K : κ → κ → κ)
    (hK : ∀ a b, w (K a b) = w a * w b) (A B : List (κ × ℤ)) :
    valList w (A.foldl (fun acc kvi => B.foldl (fun acc2 kvj =>
      addTerm (K kvi.1 kvj.1) (kvi.2 * kvj.2) acc2) acc) [])
    = valList w A * valList w B := by
  have hinner : ∀ (kvi : κ × ℤ) (init : List (κ × ℤ)),
      valList w (B.foldl (fun acc2 kvj =>
        addTerm (K kvi.1 kvj.1) (kvi.2 * kvj.2) acc2) init)
      = valList w init + (kvi.2 : ℝ) * w kvi.1 * valList w B := by
    intro kvi init
    rw [valList_foldl_addTerm w (fun kvj => K kvi.1 kvj.1) (fun kvj => kvi.2 * kvj.2) B init]
    congr 1
    have hcong : B.map (fun kvj => ((kvi.2 * kvj.2 : ℤ) : ℝ) * w (K kvi.1 kvj.1))
        = B.map (fun kvj => ((kvi.2 : ℝ) * w kvi.1) * ((kvj.2 : ℝ) * w kvj.1)) := by
      apply List.map_congr_left
      intro kvj _
      rw [hK]
      push_cast
      ring
    rw [hcong, List.sum_map_mul_left]
    rfl
  have houter : ∀ (A' : List (κ × ℤ)) (init : List (κ × ℤ)),
      valList w (A'.foldl (fun acc kvi => B.foldl (fun acc2 kvj =>
        addTerm (K kvi.1 kvj.1) (kvi.2 * kvj.2) acc2) acc) init)
      = valList w init + valList w A' * valList w B := by
    intro A'
    induction A' with
    | nil => intro init; simp [valList]
    | cons a t ih =>
      intro init
      rw [List.foldl_cons, ih, hinner, valList_cons]
      ring
  rw [houter A [], valList_nil, zero_add]

lemma lookupCoeff_rawMul (K : κ → κ → κ) (A B : List (κ × ℤ)) (q : κ) :
    lookupCoeff q (A.foldl (fun acc kvi => B.foldl (fun acc2 kvj =>
      addTerm (K kvi.1 kvj.1) (kvi.2 * kvj.2) acc2) acc) [])
    = (A.map (fun kvi => (B.map (fun kvj =>
        if K kvi.1 kvj.1 = q then kvi.2 * kvj.2 else 0)).sum)).sum := by
  have houter : ∀ (A' : List (κ × ℤ)) (init : List (κ × ℤ)),
      lookupCoeff q (A'.foldl (fun acc kvi => B.foldl (fun acc2 kvj =>
        addTerm (K kvi.1 kvj.1) (kvi.2 * kvj.2) acc2) acc) init)
      = lookupCoeff q init + (A'.map (fun kvi => (B.map (fun kvj =>
          if K kvi.1 kvj.1 = q then kvi.2 * kvj.2 else 0)).sum)).sum := by
    intro A'
    induction A' with
    | nil => intro init; simp
    | cons a t ih =>
      intro init
      rw [List.foldl_cons, ih, List.map_cons, List.sum_cons,
        lookupCoeff_foldl_addTerm (fun kvj => K a.1 kvj.1) (fun kvj => a.2 * kvj.2) B init q]
      ring
  rw [houter A []]
  simp [lookupCoeff]

end CanonMachinery

/-! ### The `SqrtFraction` class (sqrtfractions.py) -/

/-- Weight interpreting a `SqrtFraction` radicand: `w k = √k`. -/
noncomputable def sqrtW (k : ℕ) : ℝ := Real.sqrt k

/-- The per-term reduction of `SqrtFraction.__init__` (lines 54–57):
`c = core(k); f, k = isqrt(k//c), c`, so the term `v·√k` is accumulated as
`(f·v)·√c`. -/
def redSq (k : ℕ) : ℤ × ℕ := ((isqrt (k / core k) : ℤ), core k)

/-- Radicand order used by `sorted(n.items())` (keys are plain integers). -/
def leSq (a b : ℕ) : Bool := Nat.ble a b

/-- The `SqrtFraction` class: numerator dictionary (radicand ↦ factor, as an
association list in insertion order) and denominator. -/
structure SqrtFraction where
  n : List (ℕ × ℤ)
  d : ℤ
deriving DecidableEq

namespace SqrtFraction

/-- `SqrtFraction(n, d)` for an already-validated numerator dictionary and
non-zero denominator: the simplification part of `__init__` (lines 52–68). -/
def canon (l : List (ℕ × ℤ)) (d : ℤ) : SqrtFraction :=
  ⟨(canonAux redSq leSq l d).1, (canonAux redSq leSq l d).2⟩

/-- `SqrtFraction(m)` for an integer `m` (`n = {1: m}`, default `d = 1`). -/
def ofInt (m : ℤ) : SqrtFraction := canon [(1, m)] 1

/-- The validating constructor (lines 35–50 + 52–68) on integer raw keys: a
`ValueError` (modelled as `none`) exactly when some radicand is `< 1` or the
denominator is `0`; otherwise the canonicalised instance. -/
def buildOpt (l : List (ℤ × ℤ)) (d : ℤ) : Option SqrtFraction :=
  if ¬ (∀ kv ∈ l, 1 ≤ kv.1) then none
  else if d = 0 then none
  else some (canon (l.map (fun kv => (kv.1.toNat, kv.2))) d)

/-- `is_fraction()`: `set(self.keys()) <= {1}`. -/
def is_fraction (x : SqrtFraction) : Bool := x.n.all (fun kv => kv.1 == 1)

/-- `self == 0` (via `as_fraction() == 0`; `False` on non-fractions). -/
def eqZero (x : SqrtFraction) : Bool := x.is_fraction && (lookupCoeff 1 x.n == 0)

/-- `__add__` (lines 230–246): cross-multiplied term-wise sum. -/
def add (a b : SqrtFraction) : SqrtFraction :=
  canon (b.n.foldl (fun acc kv => addTerm kv.1 (kv.2 * a.d) acc)
    (a.n.foldl (fun acc kv => addTerm kv.1 (kv.2 * b.d) acc) [])) (a.d * b.d)

/-- `__neg__` (lines 248–250): negate the denominator and re-canonicalise. -/
def neg (a : SqrtFraction) : SqrtFraction := canon a.n (-a.d)

/-- `__sub__` (lines 252–254): `self + (-other)`. -/
def sub (a b : SqrtFraction) : SqrtFraction := add a (neg b)

/-- `__mul__` with a `SqrtFraction` operand (lines 260–267):
`n[ki*kj] += vi*vj`. -/
def mul (a b : SqrtFraction) : SqrtFraction :=
  canon (a.n.foldl (fun acc kvi => b.n.foldl (fun acc2 kvj =>
    addTerm (kvi.1 * kvj.1) (kvi.2 * kvj.2) acc2) acc) []) (a.d * b.d)

/-- `__mul__` with an `int` operand (lines 268–269): scale every factor. -/
def intMul (a : SqrtFraction) (m : ℤ) : SqrtFraction :=
  canon (a.n.map (fun kv => (kv.1, kv.2 * m))) a.d

/-- `__pow__` for a nonnegative exponent (lines 306–313):
`reduce(mul, repeat(self, k), SqrtFraction(1))` (a left fold starting from
the canonical 1); a negative exponent goes through `__invert__` first and is
not needed here. -/
def pow (a : SqrtFraction) (k : ℕ) : SqrtFraction :=
  (List.replicate k a).foldl mul (ofInt 1)

/-- The four invariants of a live `SqrtFraction` (spec §3): every radicand is
canonical for the reducer (square-free kernel fixed point) with a non-zero
factor, the gcd of all factors and the denominator is 1, the denominator is
positive, and the terms are strictly sorted by radicand. -/
def IsCanonical (x : SqrtFraction) : Prop :=
  (∀ kv ∈ x.n, core kv.1 = kv.1 ∧ kv.2 ≠ 0) ∧
  gcdAll x.n x.d = 1 ∧ 0 < x.d ∧
  List.Pairwise (fun a b : ℕ × ℤ => a.1 < b.1) x.n

instance (x : SqrtFraction) : Decidable (IsCanonical x) := by
  unfold IsCanonical
  infer_instance

/-- Real value `(Σᵢ nᵢ·√rᵢ) / d` of a `SqrtFraction`. -/
noncomputable def val (x : SqrtFraction) : ℝ := valList sqrtW x.n / (x.d : ℝ)

end SqrtFraction

lemma redSq_val (k : ℕ) : (((redSq k).1 : ℤ) : ℝ) * sqrtW ((redSq k).2) = sqrtW k := by
  rcases Nat.eq_zero_or_pos k with rfl | hk
  · have h1 : redSq 0 = ((0 : ℤ), 1) := by
      rw [redSq, core_zero]
      norm_num
      rfl
    rw [h1]
    simp [sqrtW]
  · rw [redSq]
    simp only
    rw [isqrt_div_core hk.ne', sqrtW, sqrtW]
    have hk' : ((sqPartCore k : ℝ) * (sqPartCore k : ℝ)) * (core k : ℝ) = (k : ℝ) := by
      exact_mod_cast congrArg (fun t : ℕ => (t : ℝ)) (sq_mul_core hk.ne')
    rw [← hk', Real.sqrt_mul (by positivity), Real.sqrt_mul_self (by positivity)]
    push_cast
    ring

lemma leSq_total : ∀ a b : ℕ, leSq a b = true ∨ leSq b a = true := by
  intro a b
  rcases Nat.le_total a b with h | h
  · exact Or.inl (Nat.ble_eq.mpr h)
  · exact Or.inr (Nat.ble_eq.mpr h)

lemma leSq_trans : ∀ a b c : ℕ, leSq a b = true → leSq b c = true → leSq a c = true := by
  intro a b c h1 h2
  exact Nat.ble_eq.mpr (le_trans (Nat.ble_eq.mp h1) (Nat.ble_eq.mp h2))

/-- `SqrtFraction.canon` establishes the invariants and only produces
square-free-kernel keys of input terms. -/
lemma canonSq_spec (l : List (ℕ × ℤ)) (d : ℤ) (hd : d ≠ 0) :
    (SqrtFraction.canon l d).IsCanonical ∧
    (∀ kv ∈ (SqrtFraction.canon l d).n, ∃ kv0 ∈ l, kv.1 = core kv0.1) := by
  obtain ⟨hpos, hgcd, hnz, hsrc, hnodup, hpair⟩ :=
    canonAux_spec redSq leSq leSq_total leSq_trans l d hd
  have hkeys : ∀ kv ∈ (SqrtFraction.canon l d).n, ∃ kv0 ∈ l, kv.1 = core kv0.1 := by
    intro kv hkv
    obtain ⟨kv0, hkv0, he⟩ := hsrc kv hkv
    exact ⟨kv0, hkv0, he⟩
  refine ⟨⟨?_, hgcd, hpos, ?_⟩, hkeys⟩
  · intro kv hkv
    obtain ⟨kv0, _, he⟩ := hkeys kv hkv
    exact ⟨by rw [he, core_idem], hnz kv hkv⟩
  · have hne : List.Pairwise (fun a b : ℕ × ℤ => a.1 ≠ b.1) (canonAux redSq leSq l d).1 :=
      List.pairwise_map.mp hnodup
    have hle : List.Pairwise (fun a b : ℕ × ℤ => a.1 ≤ b.1) (canonAux redSq leSq l d).1 :=
      hpair.imp (fun h => Nat.ble_eq.mp h)
    exact (hle.and hne).imp (fun h => lt_of_le_of_ne h.1 h.2)

lemma canonSq_val (l : List (ℕ × ℤ)) (d : ℤ) (hd : d ≠ 0) :
    (SqrtFraction.canon l d).val = valList sqrtW l / (d : ℝ) :=
  canonAux_val redSq leSq sqrtW redSq_val l d hd

lemma canonSq_d_pos (l : List (ℕ × ℤ)) (d : ℤ) (hd : d ≠ 0) :
    0 < (SqrtFraction.canon l d).d :=
  (canonAux_spec redSq leSq leSq_total leSq_trans l d hd).1

lemma sqrtW_mul (a b : ℕ) : sqrtW (a * b) = sqrtW a * sqrtW b := by
  rw [sqrtW, sqrtW, sqrtW]
  push_cast
  exact Real.sqrt_mul (by positivity) _

namespace SqrtFraction

lemma IsCanonical.d_pos {x : SqrtFraction} (h : x.IsCanonical) : 0 < x.d := h.2.2.1

lemma IsCanonical.d_ne {x : SqrtFraction} (h : x.IsCanonical) : x.d ≠ 0 := h.d_pos.ne'

lemma IsCanonical.key_pos {x : SqrtFraction} (h : x.IsCanonical) :
    ∀ kv ∈ x.n, 1 ≤ kv.1 := by
  intro kv hkv
  have h1 := (h.1 kv hkv).1
  have h2 := core_pos kv.1
  omega

lemma add_canonical {a b : SqrtFraction} (ha : a.IsCanonical) (hb : b.IsCanonical) :
    (add a b).IsCanonical :=
  (canonSq_spec _ _ (mul_ne_zero ha.d_ne hb.d_ne)).1

lemma neg_canonical {a : SqrtFraction} (ha : a.IsCanonical) : a.neg.IsCanonical :=
  (canonSq_spec _ _ (neg_ne_zero.mpr ha.d_ne)).1

lemma sub_canonical {a b : SqrtFraction} (ha : a.IsCanonical) (hb : b.IsCanonical) :
    (sub a b).IsCanonical :=
  add_canonical ha (neg_canonical hb)

lemma mul_canonical {a b : SqrtFraction} (ha : a.IsCanonical) (hb : b.IsCanonical) :
    (mul a b).IsCanonical :=
  (canonSq_spec _ _ (mul_ne_zero ha.d_ne hb.d_ne)).1

lemma intMul_canonical {a : SqrtFraction} (ha : a.IsCanonical) (m : ℤ) :
    (intMul a m).IsCanonical :=
  (canonSq_spec _ _ ha.d_ne).1

lemma ofInt_canonical (m : ℤ) : (ofInt m).IsCanonical :=
  (canonSq_spec _ _ one_ne_zero).1

lemma pow_canonical {a : SqrtFraction} (ha : a.IsCanonical) (k : ℕ) :
    (pow a k).IsCanonical := by
  have hgen : ∀ (j : ℕ) (init : SqrtFraction), init.IsCanonical →
      ((List.replicate j a).foldl mul init).IsCanonical := by
    intro j
    induction j with
    | zero => intro init hi; exact hi
    | succ j ih =>
      intro init hi
      rw [List.replicate_succ, List.foldl_cons]
      exact ih _ (mul_canonical hi ha)
  exact hgen k _ (ofInt_canonical 1)

lemma val_add {a b : SqrtFraction} (ha : a.d ≠ 0) (hb : b.d ≠ 0) :
    (add a b).val = a.val + b.val := by
  rw [add, show (canon (b.n.foldl (fun acc kv => addTerm kv.1 (kv.2 * a.d) acc)
    (a.n.foldl (fun acc kv => addTerm kv.1 (kv.2 * b.d) acc) [])) (a.d * b.d)).val
    = valList sqrtW (b.n.foldl (fun acc kv => addTerm kv.1 (kv.2 * a.d) acc)
      (a.n.foldl (fun acc kv => addTerm kv.1 (kv.2 * b.d) acc) [])) / ((a.d * b.d : ℤ) : ℝ)
    from canonSq_val _ _ (mul_ne_zero ha hb)]
  rw [valList_foldl_addTerm sqrtW (·.1) (fun kv => kv.2 * a.d),
    valList_foldl_addTerm sqrtW (·.1) (fun kv => kv.2 * b.d), valList_nil,
    sum_scaled_eq_valList_mul, sum_scaled_eq_valList_mul]
  rw [val, val]
  have haR : (a.d : ℝ) ≠ 0 := Int.cast_ne_zero.mpr ha
  have hbR : (b.d : ℝ) ≠ 0 := Int.cast_ne_zero.mpr hb
  push_cast
  field_simp

lemma val_neg {a : SqrtFraction} (ha : a.d ≠ 0) : a.neg.val = -a.val := by
  rw [neg, show (canon a.n (-a.d)).val = valList sqrtW a.n / ((-a.d : ℤ) : ℝ)
    from canonSq_val _ _ (neg_ne_zero.mpr ha), val]
  push_cast
  rw [div_neg]

lemma val_sub {a b : SqrtFraction} (ha : a.d ≠ 0) (hb : b.d ≠ 0) :
    (sub a b).val = a.val - b.val := by
  have hbneg : b.neg.d ≠ 0 := (canonSq_d_pos _ _ (neg_ne_zero.mpr hb)).ne'
  rw [sub, val_add ha hbneg, val_neg hb]
  ring

lemma val_mul {a b : SqrtFraction} (ha : a.d ≠ 0) (hb : b.d ≠ 0) :
    (mul a b).val = a.val * b.val := by
  rw [mul, show (canon (a.n.foldl (fun acc kvi => b.n.foldl (fun acc2 kvj =>
      addTerm (kvi.1 * kvj.1) (kvi.2 * kvj.2) acc2) acc) []) (a.d * b.d)).val
    = valList sqrtW (a.n.foldl (fun acc kvi => b.n.foldl (fun acc2 kvj =>
      addTerm (kvi.1 * kvj.1) (kvi.2 * kvj.2) acc2) acc) []) / ((a.d * b.d : ℤ) : ℝ)
    from canonSq_val _ _ (mul_ne_zero ha hb)]
  rw [valList_rawMul sqrtW (· * ·) sqrtW_mul, val, val]
  have haR : (a.d : ℝ) ≠ 0 := Int.cast_ne_zero.mpr ha
  have hbR : (b.d : ℝ) ≠ 0 := Int.cast_ne_zero.mpr hb
  push_cast
  field_simp

lemma val_intMul {a : SqrtFraction} (ha : a.d ≠ 0) (m : ℤ) :
    (intMul a m).val = a.val * (m : ℝ) := by
  rw [intMul, show (canon (a.n.map (fun kv => (kv.1, kv.2 * m))) a.d).val
    = valList sqrtW (a.n.map (fun kv => (kv.1, kv.2 * m))) / (a.d : ℝ)
    from canonSq_val _ _ ha, valList_map_mul, val]
  ring

end SqrtFraction

/-! ### Primes appearing in the radicands of a `SqrtFraction` -/

/-- `max(primefactors(n), default=0)`-style fold. -/
def listMax (l : List ℕ) : ℕ := l.foldr max 0

/-- The set of primes dividing a radicand. -/
def primesOfKey (k : ℕ) : Finset ℕ := (primeFacList k).toFinset

/-- The set of primes dividing any radicand of a numerator list. -/
def primesOfN (l : List (ℕ × ℤ)) : Finset ℕ :=
  l.foldr (fun kv acc => primesOfKey kv.1 ∪ acc) ∅

/-- The set of primes dividing any radicand of a `SqrtFraction`. -/
def SqrtFraction.primesOf (x : SqrtFraction) : Finset ℕ := primesOfN x.n

/-- `p = max(max(primefactors(n), default=0) for n in l.keys())`
(sqrtfractions.py line 189). -/
def SqrtFraction.maxPrime (x : SqrtFraction) : ℕ :=
  listMax (x.n.map (fun kv => listMax (primeFacList kv.1)))

lemma le_listMax (l : List ℕ) : ∀ a ∈ l, a ≤ listMax l := by
  induction l with
  | nil => intro a ha; simp at ha
  | cons h t ih =>
    intro a ha
    rcases List.mem_cons.mp ha with rfl | hm
    · exact le_max_left _ _
    · exact le_trans (ih a hm) (le_max_right _ _)

lemma listMax_mem (l : List ℕ) : listMax l = 0 ∨ listMax l ∈ l := by
  induction l with
  | nil => exact Or.inl rfl
  | cons h t ih =>
    have hm : listMax (h :: t) = max h (listMax t) := rfl
    rcases Nat.le_total h (listMax t) with hle | hle
    · rw [hm, max_eq_right hle]
      rcases ih with h0 | hmem
      · exact Or.inl h0
      · exact Or.inr (List.mem_cons_of_mem _ hmem)
    · rw [hm, max_eq_left hle]
      exact Or.inr (List.mem_cons_self _ _)

lemma primeFacList_zero : primeFacList 0 = [] := by
  rw [primeFacList_eq]; simp

lemma primeFacList_one : primeFacList 1 = [] := by
  rw [primeFacList_eq]; simp

lemma mem_primeFacList {k q : ℕ} (hk : k ≠ 0) :
    q ∈ primeFacList k ↔ q.Prime ∧ q ∣ k := by
  rw [primeFacList_eq]
  exact Nat.mem_primeFactorsList hk

lemma mem_primesOfN {l : List (ℕ × ℤ)} {q : ℕ} :
    q ∈ primesOfN l ↔ ∃ kv ∈ l, q ∈ primeFacList kv.1 := by
  induction l with
  | nil => simp [primesOfN]
  | cons kv t ih =>
    have hc : primesOfN (kv :: t) = primesOfKey kv.1 ∪ primesOfN t := rfl
    rw [hc]
    simp only [Finset.mem_union, primesOfKey, List.mem_toFinset, List.mem_cons, ih]
    constructor
    · rintro (h | ⟨kv', hkv', hq⟩)
      · exact ⟨kv, Or.inl rfl, h⟩
      · exact ⟨kv', Or.inr hkv', hq⟩
    · rintro ⟨kv', (rfl | hm), hq⟩
      · exact Or.inl hq
      · exact Or.inr ⟨kv', hm, hq⟩

/-- Primes of a canonicalised numerator come from the input radicands. -/
lemma primesOf_canon_sub (l : List (ℕ × ℤ)) (d : ℤ) (hd : d ≠ 0) :
    (SqrtFraction.canon l d).primesOf ⊆ primesOfN l := by
  intro q hq
  obtain ⟨kv, hkv, hqk⟩ := mem_primesOfN.mp hq
  obtain ⟨kv0, hkv0, he⟩ := (canonSq_spec l d hd).2 kv hkv
  apply mem_primesOfN.mpr
  refine ⟨kv0, hkv0, ?_⟩
  rw [he] at hqk
  exact primeFacList_core_sub _ q hqk

lemma key_mem_primesOfN {l : List (ℕ × ℤ)} {q k : ℕ} (hk : ∃ kv ∈ l, kv.1 = k)
    (hq : q ∈ primeFacList k) : q ∈ primesOfN l := by
  obtain ⟨kv, hkv, rfl⟩ := hk
  exact mem_primesOfN.mpr ⟨kv, hkv, hq⟩

namespace SqrtFraction

lemma primesOf_add_sub {a b : SqrtFraction} (ha : a.d ≠ 0) (hb : b.d ≠ 0) :
    (add a b).primesOf ⊆ a.primesOf ∪ b.primesOf := by
  intro q hq
  have hsub := primesOf_canon_sub _ _ (mul_ne_zero ha hb) hq
  obtain ⟨kv, hkv, hqk⟩ := mem_primesOfN.mp hsub
  have hkey : kv.1 ∈ ((b.n.foldl (fun acc kv => addTerm kv.1 (kv.2 * a.d) acc)
      (a.n.foldl (fun acc kv => addTerm kv.1 (kv.2 * b.d) acc) [])).map (·.1)) :=
    List.mem_map.mpr ⟨kv, hkv, rfl⟩
  rcases keys_foldl_addTerm_mem _ _ _ _ _ hkey with hin | ⟨kv', hkv', he⟩
  · rcases keys_foldl_addTerm_mem _ _ _ _ _ hin with hnil | ⟨kv', hkv', he⟩
    · simp at hnil
    · exact Finset.mem_union_left _
        (mem_primesOfN.mpr ⟨kv', hkv', by rw [← he]; exact hqk⟩)
  · exact Finset.mem_union_right _
      (mem_primesOfN.mpr ⟨kv', hkv', by rw [← he]; exact hqk⟩)

lemma primesOf_neg_sub {a : SqrtFraction} (ha : a.d ≠ 0) :
    a.neg.primesOf ⊆ a.primesOf :=
  primesOf_canon_sub _ _ (neg_ne_zero.mpr ha)

lemma primesOf_sub_sub {a b : SqrtFraction} (ha : a.d ≠ 0) (hb : b.d ≠ 0) :
    (sub a b).primesOf ⊆ a.primesOf ∪ b.primesOf := by
  intro q hq
  have hbneg : b.neg.d ≠ 0 := (canonSq_d_pos _ _ (neg_ne_zero.mpr hb)).ne'
  rcases Finset.mem_union.mp (primesOf_add_sub ha hbneg hq) with h | h
  · exact Finset.mem_union_left _ h
  · exact Finset.mem_union_right _ (primesOf_neg_sub hb h)

lemma primesOf_intMul_sub {a : SqrtFraction} (ha : a.d ≠ 0) (m : ℤ) :
    (intMul a m).primesOf ⊆ a.primesOf := by
  intro q hq
  have hsub := primesOf_canon_sub _ _ ha hq
  obtain ⟨kv, hkv, hqk⟩ := mem_primesOfN.mp hsub
  obtain ⟨kv0, hkv0, he⟩ := List.mem_map.mp hkv
  refine mem_primesOfN.mpr ⟨kv0, hkv0, ?_⟩
  have : kv.1 = kv0.1 := by rw [← he]
  rwa [this] at hqk

lemma keys_rawMul_mem {A B : List (ℕ × ℤ)} {q : ℕ}
    (h : q ∈ ((A.foldl (fun acc kvi => B.foldl (fun acc2 kvj =>
      addTerm (kvi.1 * kvj.1) (kvi.2 * kvj.2) acc2) acc) []).map (·.1))) :
    ∃ kvi ∈ A, ∃ kvj ∈ B, q = kvi.1 * kvj.1 := by
  have hgen : ∀ (A' : List (ℕ × ℤ)) (init : List (ℕ × ℤ)),
      q ∈ ((A'.foldl (fun acc kvi => B.foldl (fun acc2 kvj =>
        addTerm (kvi.1 * kvj.1) (kvi.2 * kvj.2) acc2) acc) init).map (·.1)) →
      q ∈ init.map (·.1) ∨ ∃ kvi ∈ A', ∃ kvj ∈ B, q = kvi.1 * kvj.1 := by
    intro A'
    induction A' with
    | nil => intro init hi; exact Or.inl hi
    | cons a t ih =>
      intro init hi
      rw [List.foldl_cons] at hi
      rcases ih _ hi with hin | ⟨kvi, hkvi, kvj, hkvj, he⟩
      · rcases keys_foldl_addTerm_mem _ _ _ _ _ hin with hin2 | ⟨kvj, hkvj, he⟩
        · exact Or.inl hin2
        · exact Or.inr ⟨a, List.mem_cons_self _ _, kvj, hkvj, he⟩
      · exact Or.inr ⟨kvi, List.mem_cons_of_mem _ hkvi, kvj, hkvj, he⟩
  rcases hgen A [] h with hin | hex
  · simp at hin
  · exact hex

lemma primesOf_mul_sub {a b : SqrtFraction} (ha : a.d ≠ 0) (hb : b.d ≠ 0)
    (hka : ∀ kv ∈ a.n, 1 ≤ kv.1) (hkb : ∀ kv ∈ b.n, 1 ≤ kv.1) :
    (mul a b).primesOf ⊆ a.primesOf ∪ b.primesOf := by
  intro q hq
  have hsub := primesOf_canon_sub _ _ (mul_ne_zero ha hb) hq
  obtain ⟨kv, hkv, hqk⟩ := mem_primesOfN.mp hsub
  have hkey : kv.1 ∈ ((a.n.foldl (fun acc kvi => b.n.foldl (fun acc2 kvj =>
      addTerm (kvi.1 * kvj.1) (kvi.2 * kvj.2) acc2) acc) []).map (·.1)) :=
    List.mem_map.mpr ⟨kv, hkv, rfl⟩
  obtain ⟨kvi, hkvi, kvj, hkvj, he⟩ := keys_rawMul_mem hkey
  rw [he] at hqk
  have hkine : kvi.1 ≠ 0 := by have := hka kvi hkvi; omega
  have hkjne : kvj.1 ≠ 0 := by have := hkb kvj hkvj; omega
  obtain ⟨hqp, hqd⟩ := (mem_primeFacList (Nat.mul_ne_zero hkine hkjne)).mp hqk
  rcases (Nat.Prime.dvd_mul hqp).mp hqd with hd | hd
  · exact Finset.mem_union_left _
      (mem_primesOfN.mpr ⟨kvi, hkvi, (mem_primeFacList hkine).mpr ⟨hqp, hd⟩⟩)
  · exact Finset.mem_union_right _
      (mem_primesOfN.mpr ⟨kvj, hkvj, (mem_primeFacList hkjne).mpr ⟨hqp, hd⟩⟩)

/-- The left part of the pivot split of `__lt__` (line 193): terms whose
radicand is not divisible by the pivot, over the same denominator. -/
def lSplit (x : SqrtFraction) (p : ℕ) : SqrtFraction :=
  canon (x.n.filter (fun kv => kv.1 % p != 0)) x.d

/-- The right part of the pivot split of `__lt__` (line 192): terms whose
radicand is divisible by the pivot, radicand divided by the pivot and factor
negated, over the same denominator. -/
def rSplit (x : SqrtFraction) (p : ℕ) : SqrtFraction :=
  canon ((x.n.filter (fun kv => kv.1 % p == 0)).map (fun kv => (kv.1 / p, -kv.2))) x.d

lemma maxPrime_spec {x : SqrtFraction} (hkeys : ∀ kv ∈ x.n, 1 ≤ kv.1)
    (hnf : x.is_fraction = false) :
    x.maxPrime.Prime ∧ x.maxPrime ∈ x.primesOf ∧
    ∀ q ∈ x.primesOf, q ≤ x.maxPrime := by
  obtain ⟨kv, hkv, hkne⟩ : ∃ kv ∈ x.n, kv.1 ≠ 1 := by
    rcases List.all_eq_false.mp hnf with ⟨kv, hkv, hne⟩
    exact ⟨kv, hkv, by simpa using hne⟩
  have hk2 : 2 ≤ kv.1 := by have := hkeys kv hkv; omega
  have hne : primeFacList kv.1 ≠ [] := by
    intro h0
    have := Nat.prod_primeFactorsList (show kv.1 ≠ 0 by omega)
    rw [← primeFacList_eq, h0] at this
    simp at this
    omega
  obtain ⟨p0, hp0⟩ : ∃ p0, p0 ∈ primeFacList kv.1 := by
    cases hpf : primeFacList kv.1 with
    | nil => exact absurd hpf hne
    | cons h t => exact ⟨h, List.mem_cons_self _ _⟩
  have hp0p : p0.Prime := by
    rw [primeFacList_eq] at hp0
    exact Nat.prime_of_mem_primeFactorsList hp0
  have hinner2 : 2 ≤ listMax (primeFacList kv.1) :=
    le_trans hp0p.two_le (le_listMax _ _ hp0)
  have hmle : listMax (primeFacList kv.1) ≤ x.maxPrime :=
    le_listMax _ _ (List.mem_map.mpr ⟨kv, hkv, rfl⟩)
  have hM2 : 2 ≤ x.maxPrime := le_trans hinner2 hmle
  rcases listMax_mem (x.n.map (fun kv => listMax (primeFacList kv.1))) with h0 | hmem
  · have hdef : x.maxPrime = listMax (x.n.map (fun kv => listMax (primeFacList kv.1))) := rfl
    rw [hdef] at hM2
    omega
  · obtain ⟨kv', hkv', he⟩ := List.mem_map.mp hmem
    have hin' : x.maxPrime ∈ primeFacList kv'.1 := by
      have hM2' : 2 ≤ listMax (primeFacList kv'.1) := by rw [he]; exact hM2
      rcases listMax_mem (primeFacList kv'.1) with h0' | hm'
      · omega
      · have hfin : listMax (primeFacList kv'.1) = x.maxPrime := he
        rwa [hfin] at hm'
    have hMprime : x.maxPrime.Prime := by
      rw [primeFacList_eq] at hin'
      exact Nat.prime_of_mem_primeFactorsList hin'
    refine ⟨hMprime, mem_primesOfN.mpr ⟨kv', hkv', hin'⟩, ?_⟩
    intro q hq
    obtain ⟨kv'', hkv'', hq''⟩ := mem_primesOfN.mp hq
    exact le_trans (le_listMax _ _ hq'')
      (le_listMax _ _ (List.mem_map.mpr ⟨kv'', hkv'', rfl⟩))

lemma primesOf_lSplit_sub {x : SqrtFraction} {p : ℕ} (hd : x.d ≠ 0) (hp : 0 < p) :
    (x.lSplit p).primesOf ⊆ x.primesOf \ {p} := by
  intro q hq
  have hsub := primesOf_canon_sub _ _ hd hq
  obtain ⟨kv, hkv, hqk⟩ := mem_primesOfN.mp hsub
  have hmem := List.mem_of_mem_filter hkv
  have hfil := List.of_mem_filter hkv
  have hk0 : kv.1 ≠ 0 := by
    intro h0
    rw [h0, primeFacList_zero] at hqk
    simp at hqk
  rw [Finset.mem_sdiff]
  refine ⟨mem_primesOfN.mpr ⟨kv, hmem, hqk⟩, ?_⟩
  rw [Finset.mem_singleton]
  rintro rfl
  obtain ⟨_, hdvd⟩ := (mem_primeFacList hk0).mp hqk
  rw [bne_iff_ne] at hfil
  obtain ⟨c, hc⟩ := hdvd
  rw [hc] at hfil
  exact hfil (Nat.mul_mod_right q c)

lemma primesOf_rSplit_sub {x : SqrtFraction} {p : ℕ} (hd : x.d ≠ 0) (hp : p.Prime)
    (hsf : ∀ kv ∈ x.n, core kv.1 = kv.1) (hkeys : ∀ kv ∈ x.n, 1 ≤ kv.1) :
    (x.rSplit p).primesOf ⊆ x.primesOf \ {p} := by
  intro q hq
  have hsub := primesOf_canon_sub _ _ hd hq
  obtain ⟨kv, hkv, hqk⟩ := mem_primesOfN.mp hsub
  obtain ⟨kv0, hkv0, he⟩ := List.mem_map.mp hkv
  have hmem := List.mem_of_mem_filter hkv0
  have hfil := List.of_mem_filter hkv0
  have hpk : p ∣ kv0.1 := by
    simp only [beq_iff_eq] at hfil
    exact Nat.dvd_of_mod_eq_zero hfil
  have hk1 : 1 ≤ kv0.1 := hkeys kv0 hmem
  have hkey : kv.1 = kv0.1 / p := by rw [← he]
  have hq_dvd_div : q ∈ primeFacList (kv0.1 / p) := hkey ▸ hqk
  have hdiv_ne : kv0.1 / p ≠ 0 := by
    intro h0
    rw [h0, primeFacList_zero] at hq_dvd_div
    simp at hq_dvd_div
  obtain ⟨hqp, hqd⟩ := (mem_primeFacList hdiv_ne).mp hq_dvd_div
  have hdvd_k : q ∣ kv0.1 := hqd.trans (Nat.div_dvd_of_dvd hpk)
  rw [Finset.mem_sdiff]
  refine ⟨mem_primesOfN.mpr ⟨kv0, hmem, (mem_primeFacList (by omega)).mpr ⟨hqp, hdvd_k⟩⟩, ?_⟩
  rw [Finset.mem_singleton]
  rintro rfl
  -- the pivot itself would give pivot² ∣ kv0.1, contradicting square-freeness
  have hpp : q * q ∣ kv0.1 := by
    obtain ⟨m, hm⟩ := hqd
    have hself : kv0.1 = q * (kv0.1 / q) := (Nat.mul_div_cancel' hpk).symm
    rw [hself, hm]
    exact ⟨m, by ring⟩
  have hle1 : kv0.1.factorization q ≤ 1 := by
    rw [← hsf kv0 hmem]
    exact core_factorization_le _ _
  have h2le : 2 ≤ kv0.1.factorization q :=
    (Nat.Prime.pow_dvd_iff_le_factorization hp (show kv0.1 ≠ 0 by omega)).mp
      (by rw [pow_two]; exact hpp)
  omega

end SqrtFraction

/-- Splitting a numerator list by a boolean predicate splits its value. -/
lemma valList_filter_split {κ : Type} [DecidableEq κ] (w : κ → ℝ) (pred : κ × ℤ → Bool)
    (l : List (κ × ℤ)) :
    valList w l = valList w (l.filter pred) + valList w (l.filter (fun kv => !pred kv)) := by
  induction l with
  | nil => simp [valList]
  | cons kv t ih =>
    by_cases h : pred kv = true
    · simp only [List.filter_cons, h, Bool.not_true, Bool.false_eq_true, if_true, if_false,
        valList_cons]
      rw [ih]
      ring
    · have h' : pred kv = false := by simpa using h
      simp only [List.filter_cons, h', Bool.not_false, Bool.false_eq_true, if_true, if_false,
        valList_cons]
      rw [ih]
      ring

/-- `x = L − √p·R` for the pivot split (`x ? 0  ⟺  L ? √p·R`). -/
lemma val_split (x : SqrtFraction) (p : ℕ) (hd : x.d ≠ 0) (hp : 0 < p) :
    x.val = (x.lSplit p).val - Real.sqrt p * (x.rSplit p).val := by
  rw [SqrtFraction.lSplit, SqrtFraction.rSplit, canonSq_val _ _ hd, canonSq_val _ _ hd]
  have hr : Real.sqrt p * valList sqrtW ((x.n.filter (fun kv => kv.1 % p == 0)).map
      (fun kv => (kv.1 / p, -kv.2)))
      = - valList sqrtW (x.n.filter (fun kv => kv.1 % p == 0)) := by
    have : ∀ (l' : List (ℕ × ℤ)), (∀ kv ∈ l', p ∣ kv.1) →
        Real.sqrt p * valList sqrtW (l'.map (fun kv => (kv.1 / p, -kv.2)))
        = - valList sqrtW l' := by
      intro l'
      induction l' with
      | nil => simp [valList]
      | cons kv t ih =>
        intro hdvd
        rw [List.map_cons, valList_cons, valList_cons, mul_add,
          ih (fun kv hkv => hdvd kv (List.mem_cons_of_mem _ hkv))]
        have hk : (kv.1 : ℝ) = (kv.1 / p : ℕ) * (p : ℝ) := by
          exact_mod_cast congrArg (fun t : ℕ => (t : ℝ))
            (Nat.div_mul_cancel (hdvd kv (List.mem_cons_self _ _))).symm
        have hw : sqrtW kv.1 = sqrtW (kv.1 / p) * Real.sqrt p := by
          rw [sqrtW, sqrtW, hk, Real.sqrt_mul (by positivity)]
        rw [hw]
        push_cast
        ring
    apply this
    intro kv hkv
    have := List.of_mem_filter hkv
    simp only [beq_iff_eq] at this
    exact Nat.dvd_of_mod_eq_zero this
  rw [SqrtFraction.val]
  have hsplit := valList_filter_split sqrtW (fun kv => kv.1 % p == 0) x.n
  have hfil : x.n.filter (fun kv => !(kv.1 % p == 0)) = x.n.filter (fun kv => kv.1 % p != 0) := by
    apply List.filter_congr
    intro kv _
    rfl
  rw [hfil] at hsplit
  rw [hsplit, ← mul_div_assoc, hr]
  push_cast
  ring

/-! ### The sign procedure of `__lt__` (sqrtfractions.py, lines 181–209)

The `while not l.is_fraction()` loop picks the largest prime `p` in any
radicand, splits `l = L - √p·R`, recursively determines the signs of `L` and
`R` (the recursive `abs` calls), squares both sides preserving sign
(`l, r = l*abs(l), r*abs(r)*p`), and continues with `l -= r`.  Each
iteration removes `p` from every radicand, so the number of iterations is
bounded by the number of distinct primes; the loop is embedded with that
fuel.  The final `l.as_fraction() < 0` is generalised to the three-way sign
of the remaining rational, per spec §4.4 step 2. -/

/-- The iterative radical-elimination sign procedure, with fuel bounding the
number of elimination levels. -/
def signFuel : ℕ → SqrtFraction → Option ℤ
  | 0, x => if x.is_fraction then some (Int.sign (lookupCoeff 1 x.n)) else none
  | fuel+1, x =>
    if x.is_fraction then some (Int.sign (lookupCoeff 1 x.n))
    else
      match signFuel fuel (x.lSplit x.maxPrime), signFuel fuel (x.rSplit x.maxPrime) with
      | some sl, some sr =>
        signFuel fuel
          (((x.lSplit x.maxPrime).mul
              (if sl < 0 then (x.lSplit x.maxPrime).neg else x.lSplit x.maxPrime)).sub
            (((x.rSplit x.maxPrime).mul
              (if sr < 0 then (x.rSplit x.maxPrime).neg else x.rSplit x.maxPrime)).intMul
              (x.maxPrime : ℤ)))
      | _, _ => none

/-- `s ∈ {-1, 0, 1}` correctly reports the sign of `v`. -/
def SignEncodes (s : ℤ) (v : ℝ) : Prop :=
  (0 < v ∧ s = 1) ∨ (v = 0 ∧ s = 0) ∨ (v < 0 ∧ s = -1)

lemma signFuel_fraction {x : SqrtFraction} (fuel : ℕ) (hf : x.is_fraction = true) :
    signFuel fuel x = some (Int.sign (lookupCoeff 1 x.n)) := by
  cases fuel <;> simp [signFuel, hf]

lemma valList_all_one {l : List (ℕ × ℤ)} (h : ∀ kv ∈ l, kv.1 = 1) :
    valList sqrtW l = ((lookupCoeff 1 l : ℤ) : ℝ) := by
  induction l with
  | nil => simp [valList, lookupCoeff]
  | cons kv t ih =>
    rw [valList_cons, lookupCoeff, ih (fun q hq => h q (List.mem_cons_of_mem _ hq))]
    rw [h kv (List.mem_cons_self _ _), if_pos rfl]
    have h1 : sqrtW 1 = 1 := by rw [sqrtW]; simp
    rw [h1]
    push_cast
    ring

lemma is_fraction_keys {x : SqrtFraction} (hf : x.is_fraction = true) :
    ∀ kv ∈ x.n, kv.1 = 1 := by
  intro kv hkv
  have := List.all_eq_true.mp hf kv hkv
  simpa using this

lemma val_of_fraction {x : SqrtFraction} (hf : x.is_fraction = true) :
    x.val = ((lookupCoeff 1 x.n : ℤ) : ℝ) / (x.d : ℝ) := by
  rw [SqrtFraction.val, valList_all_one (is_fraction_keys hf)]

lemma signEncodes_fraction {x : SqrtFraction} (hf : x.is_fraction = true) (hd : 0 < x.d) :
    SignEncodes (Int.sign (lookupCoeff 1 x.n)) x.val := by
  rw [val_of_fraction hf]
  have hdR : (0:ℝ) < (x.d : ℝ) := by exact_mod_cast hd
  rcases lt_trichotomy (lookupCoeff 1 x.n) 0 with hc | hc | hc
  · right; right
    refine ⟨div_neg_of_neg_of_pos (by exact_mod_cast hc) hdR, ?_⟩
    rw [Int.sign_eq_neg_one_iff_neg]
    exact hc
  · rw [hc]
    right; left
    simp
  · left
    refine ⟨div_pos (by exact_mod_cast hc) hdR, ?_⟩
    rw [Int.sign_eq_one_iff_pos]
    exact hc

lemma mulAbs_strictMono : StrictMono (fun t : ℝ => t * |t|) := by
  intro u v huv
  simp only
  rcases abs_cases u with ⟨hu1, hu2⟩ | ⟨hu1, hu2⟩ <;>
    rcases abs_cases v with ⟨hv1, hv2⟩ | ⟨hv1, hv2⟩ <;> nlinarith

lemma signEncodes_mulAbs {a b : ℝ} {s : ℤ} (h : SignEncodes s (a * |a| - b * |b|)) :
    SignEncodes s (a - b) := by
  have hlt : ∀ u v : ℝ, u * |u| < v * |v| ↔ u < v := fun u v => mulAbs_strictMono.lt_iff_lt
  have heq : ∀ u v : ℝ, u * |u| = v * |v| ↔ u = v := fun u v => mulAbs_strictMono.injective.eq_iff
  rcases h with ⟨h1, h2⟩ | ⟨h1, h2⟩ | ⟨h1, h2⟩
  · exact Or.inl ⟨sub_pos.mpr ((hlt b a).mp (sub_pos.mp h1)), h2⟩
  · exact Or.inr (Or.inl ⟨sub_eq_zero.mpr ((heq a b).mp (sub_eq_zero.mp h1)), h2⟩)
  · exact Or.inr (Or.inr ⟨sub_neg.mpr ((hlt a b).mp (sub_neg.mp h1)), h2⟩)

lemma val_absBranch {l : SqrtFraction} (hl : l.IsCanonical) {sl : ℤ}
    (hse : SignEncodes sl l.val) :
    (l.mul (if sl < 0 then l.neg else l)).val = l.val * |l.val| := by
  by_cases h : sl < 0
  · rw [if_pos h]
    have hneg : l.val < 0 := by
      rcases hse with ⟨_, h2⟩ | ⟨_, h2⟩ | ⟨h1, _⟩
      · omega
      · omega
      · exact h1
    rw [SqrtFraction.val_mul hl.d_ne (SqrtFraction.neg_canonical hl).d_ne,
      SqrtFraction.val_neg hl.d_ne, abs_of_neg hneg]
  · rw [if_neg h]
    have hnn : 0 ≤ l.val := by
      rcases hse with ⟨h1, _⟩ | ⟨h1, _⟩ | ⟨_, h2⟩
      · exact le_of_lt h1
      · exact le_of_eq h1.symm
      · omega
    rw [SqrtFraction.val_mul hl.d_ne hl.d_ne, abs_of_nonneg hnn]

/-- Main induction: on a canonical square-root fraction, with fuel at least
the number of distinct primes in the radicands, the elimination procedure
terminates and returns the true sign of the real value. -/
lemma signFuel_correct : ∀ (fuel : ℕ) (x : SqrtFraction), x.IsCanonical →
    x.primesOf.card ≤ fuel → ∃ s, signFuel fuel x = some s ∧ SignEncodes s x.val := by
  intro fuel
  induction fuel with
  | zero =>
    intro x hx hcard
    have hf : x.is_fraction = true := by
      by_contra hnf
      obtain ⟨_, hmem, _⟩ := SqrtFraction.maxPrime_spec hx.key_pos (Bool.eq_false_iff.mpr hnf)
      have : 0 < x.primesOf.card := Finset.card_pos.mpr ⟨_, hmem⟩
      omega
    exact ⟨_, signFuel_fraction 0 hf, signEncodes_fraction hf hx.d_pos⟩
  | succ fuel ih =>
    intro x hx hcard
    by_cases hf : x.is_fraction = true
    · exact ⟨_, signFuel_fraction _ hf, signEncodes_fraction hf hx.d_pos⟩
    · have hnf : x.is_fraction = false := Bool.eq_false_iff.mpr hf
      obtain ⟨hpp, hpmem, _⟩ := SqrtFraction.maxPrime_spec hx.key_pos hnf
      have hdne := hx.d_ne
      have hcanL : (x.lSplit x.maxPrime).IsCanonical := (canonSq_spec _ _ hdne).1
      have hcanR : (x.rSplit x.maxPrime).IsCanonical := (canonSq_spec _ _ hdne).1
      have hsubL : (x.lSplit x.maxPrime).primesOf ⊆ x.primesOf \ {x.maxPrime} :=
        SqrtFraction.primesOf_lSplit_sub hdne hpp.pos
      have hsubR : (x.rSplit x.maxPrime).primesOf ⊆ x.primesOf \ {x.maxPrime} :=
        SqrtFraction.primesOf_rSplit_sub hdne hpp (fun kv hkv => (hx.1 kv hkv).1) hx.key_pos
      have hcard_sd : (x.primesOf \ {x.maxPrime}).card ≤ fuel := by
        rw [Finset.sdiff_singleton_eq_erase, Finset.card_erase_of_mem hpmem]
        omega
      have hcardL : (x.lSplit x.maxPrime).primesOf.card ≤ fuel :=
        le_trans (Finset.card_le_card hsubL) hcard_sd
      have hcardR : (x.rSplit x.maxPrime).primesOf.card ≤ fuel :=
        le_trans (Finset.card_le_card hsubR) hcard_sd
      obtain ⟨sl, hsl, hseL⟩ := ih _ hcanL hcardL
      obtain ⟨sr, hsr, hseR⟩ := ih _ hcanR hcardR
      have hcanL2 : ((x.lSplit x.maxPrime).mul
          (if sl < 0 then (x.lSplit x.maxPrime).neg else x.lSplit x.maxPrime)).IsCanonical := by
        by_cases h : sl < 0
        · rw [if_pos h]
          exact SqrtFraction.mul_canonical hcanL (SqrtFraction.neg_canonical hcanL)
        · rw [if_neg h]
          exact SqrtFraction.mul_canonical hcanL hcanL
      have hcanR2 : ((x.rSplit x.maxPrime).mul
          (if sr < 0 then (x.rSplit x.maxPrime).neg else x.rSplit x.maxPrime)).IsCanonical := by
        by_cases h : sr < 0
        · rw [if_pos h]
          exact SqrtFraction.mul_canonical hcanR (SqrtFraction.neg_canonical hcanR)
        · rw [if_neg h]
          exact SqrtFraction.mul_canonical hcanR hcanR
      have hcanN : (((x.lSplit x.maxPrime).mul
          (if sl < 0 then (x.lSplit x.maxPrime).neg else x.lSplit x.maxPrime)).sub
          (((x.rSplit x.maxPrime).mul
            (if sr < 0 then (x.rSplit x.maxPrime).neg else x.rSplit x.maxPrime)).intMul
            (x.maxPrime : ℤ))).IsCanonical :=
        SqrtFraction.sub_canonical hcanL2 (SqrtFraction.intMul_canonical hcanR2 _)
      -- primes of the continuation value stay inside x.primesOf \ {maxPrime}
      have hPL2 : ((x.lSplit x.maxPrime).mul
          (if sl < 0 then (x.lSplit x.maxPrime).neg else x.lSplit x.maxPrime)).primesOf
          ⊆ (x.lSplit x.maxPrime).primesOf := by
        by_cases h : sl < 0
        · rw [if_pos h]
          intro q hq
          rcases Finset.mem_union.mp (SqrtFraction.primesOf_mul_sub hcanL.d_ne
            (SqrtFraction.neg_canonical hcanL).d_ne hcanL.key_pos
            (SqrtFraction.neg_canonical hcanL).key_pos hq) with h' | h'
          · exact h'
          · exact SqrtFraction.primesOf_neg_sub hcanL.d_ne h'
        · rw [if_neg h]
          intro q hq
          rcases Finset.mem_union.mp (SqrtFraction.primesOf_mul_sub hcanL.d_ne hcanL.d_ne
            hcanL.key_pos hcanL.key_pos hq) with h' | h'
          · exact h'
          · exact h'
      have hPR2 : ((x.rSplit x.maxPrime).mul
          (if sr < 0 then (x.rSplit x.maxPrime).neg else x.rSplit x.maxPrime)).primesOf
          ⊆ (x.rSplit x.maxPrime).primesOf := by
        by_cases h : sr < 0
        · rw [if_pos h]
          intro q hq
          rcases Finset.mem_union.mp (SqrtFraction.primesOf_mul_sub hcanR.d_ne
            (SqrtFraction.neg_canonical hcanR).d_ne hcanR.key_pos
            (SqrtFraction.neg_canonical hcanR).key_pos hq) with h' | h'
          · exact h'
          · exact SqrtFraction.primesOf_neg_sub hcanR.d_ne h'
        · rw [if_neg h]
          intro q hq
          rcases Finset.mem_union.mp (SqrtFraction.primesOf_mul_sub hcanR.d_ne hcanR.d_ne
            hcanR.key_pos hcanR.key_pos hq) with h' | h'
          · exact h'
          · exact h'
      have hPN : (((x.lSplit x.maxPrime).mul
          (if sl < 0 then (x.lSplit x.maxPrime).neg else x.lSplit x.maxPrime)).sub
          (((x.rSplit x.maxPrime).mul
            (if sr < 0 then (x.rSplit x.maxPrime).neg else x.rSplit x.maxPrime)).intMul
            (x.maxPrime : ℤ))).primesOf ⊆ x.primesOf \ {x.maxPrime} := by
        intro q hq
        rcases Finset.mem_union.mp (SqrtFraction.primesOf_sub_sub hcanL2.d_ne
          (SqrtFraction.intMul_canonical hcanR2 _).d_ne hq) with h' | h'
        · exact hsubL (hPL2 h')
        · exact hsubR (hPR2 (SqrtFraction.primesOf_intMul_sub hcanR2.d_ne _ h'))
      have hcardN : (((x.lSplit x.maxPrime).mul
          (if sl < 0 then (x.lSplit x.maxPrime).neg else x.lSplit x.maxPrime)).sub
          (((x.rSplit x.maxPrime).mul
            (if sr < 0 then (x.rSplit x.maxPrime).neg else x.rSplit x.maxPrime)).intMul
            (x.maxPrime : ℤ))).primesOf.card ≤ fuel :=
        le_trans (Finset.card_le_card hPN) hcard_sd
      obtain ⟨s, hs, hseN⟩ := ih _ hcanN hcardN
      refine ⟨s, ?_, ?_⟩
      · show signFuel (fuel+1) x = some s
        simp only [signFuel]
        rw [if_neg (by simp [hnf])]
        rw [hsl, hsr]
        exact hs
      · have hvalL2 := val_absBranch hcanL hseL
        have hvalR2 := val_absBranch hcanR hseR
        have hvalN : (((x.lSplit x.maxPrime).mul
            (if sl < 0 then (x.lSplit x.maxPrime).neg else x.lSplit x.maxPrime)).sub
            (((x.rSplit x.maxPrime).mul
              (if sr < 0 then (x.rSplit x.maxPrime).neg else x.rSplit x.maxPrime)).intMul
              (x.maxPrime : ℤ))).val
            = (x.lSplit x.maxPrime).val * |(x.lSplit x.maxPrime).val|
              - ((x.rSplit x.maxPrime).val * |(x.rSplit x.maxPrime).val|) * (x.maxPrime : ℝ) := by
          rw [SqrtFraction.val_sub hcanL2.d_ne (SqrtFraction.intMul_canonical hcanR2 _).d_ne]
          rw [SqrtFraction.val_intMul hcanR2.d_ne, hvalL2, hvalR2]
          push_cast
          ring
        have hx_val : x.val = (x.lSplit x.maxPrime).val
            - Real.sqrt (x.maxPrime : ℕ) * (x.rSplit x.maxPrime).val :=
          val_split x x.maxPrime hdne hpp.pos
        have hb : (Real.sqrt (x.maxPrime : ℕ) * (x.rSplit x.maxPrime).val)
            * |Real.sqrt (x.maxPrime : ℕ) * (x.rSplit x.maxPrime).val|
            = ((x.rSplit x.maxPrime).val * |(x.rSplit x.maxPrime).val|) * (x.maxPrime : ℝ) := by
          rw [abs_mul, abs_of_nonneg (Real.sqrt_nonneg _)]
          have hps : Real.sqrt ((x.maxPrime : ℕ) : ℝ) * Real.sqrt ((x.maxPrime : ℕ) : ℝ)
              = ((x.maxPrime : ℕ) : ℝ) := Real.mul_self_sqrt (by positivity)
          calc Real.sqrt ((x.maxPrime : ℕ) : ℝ) * (x.rSplit x.maxPrime).val
              * (Real.sqrt ((x.maxPrime : ℕ) : ℝ) * |(x.rSplit x.maxPrime).val|)
              = (Real.sqrt ((x.maxPrime : ℕ) : ℝ) * Real.sqrt ((x.maxPrime : ℕ) : ℝ))
                * ((x.rSplit x.maxPrime).val * |(x.rSplit x.maxPrime).val|) := by ring
            _ = _ := by rw [hps]; ring
        have hse2 : SignEncodes s ((x.lSplit x.maxPrime).val * |(x.lSplit x.maxPrime).val|
            - (Real.sqrt (x.maxPrime : ℕ) * (x.rSplit x.maxPrime).val)
              * |Real.sqrt (x.maxPrime : ℕ) * (x.rSplit x.maxPrime).val|) := by
          rw [hb, ← hvalN]
          exact hseN
        have hfinal := signEncodes_mulAbs hse2
        rwa [← hx_val] at hfinal

/-! ### `__invert__` and `__truediv__` (sqrtfractions.py, lines 275–304) -/

/-- `itertools.product((+1, -1), repeat=m)`, in itertools order (first
coordinate varies slowest, `+1` before `-1`). -/
def signTuples : ℕ → List (List ℤ)
  | 0 => [[]]
  | m+1 => (signTuples m).map (fun t => 1 :: t) ++ (signTuples m).map (fun t => -1 :: t)

namespace SqrtFraction

/-- `int(self)` (lines 105–114): the integer value if `is_integer()`
(keys ⊆ {1} and `d == 1`), otherwise a `ValueError` (modelled as `none`). -/
def toInt (x : SqrtFraction) : Option ℤ :=
  if x.is_fraction && (x.d == 1) then some (lookupCoeff 1 x.n) else none

/-- Number of non-rational terms (radicand ≠ 1) of the numerator. -/
def nonRationalCount (x : SqrtFraction) : ℕ := (x.n.filter (fun kv => kv.1 != 1)).length

/-- The branch condition of `__invert__` selecting direct rationalisation:
`len(self) == 1` (line 281), the total number of numerator terms. -/
def invertUsesDirect (x : SqrtFraction) : Bool := x.n.length == 1

/-- `__invert__` (lines 275–288).  `none` models a raised exception
(`ZeroDivisionError` on zero, and the `int()` conversion or the final
division failing, which never happens on canonical non-zero input but is
faithfully represented).  The product accumulator `r` starts at the integer
`1`, which multiplies a canonical `SqrtFraction` identically, so it is
seeded with `SqrtFraction(1)`. -/
def invert (x : SqrtFraction) : Option SqrtFraction :=
  if x.eqZero then none
  else if x.n.length = 1 then
    match x.n with
    | kv :: _ => some (canon [(kv.1, x.d)] (kv.2 * (kv.1 : ℤ)))
    | [] => none
  else
    let conjs := (signTuples (x.n.length - 1)).drop 1
    let rprod := conjs.foldl (fun acc t =>
      acc.mul (canon (List.zipWith (fun kv (s : ℤ) => (kv.1, s * kv.2)) x.n (1 :: t)) 1))
      (ofInt 1)
    match toInt (rprod.mul (canon x.n 1)) with
    | none => none
    | some m =>
      if m = 0 then none
      else some (canon (rprod.intMul x.d).n ((rprod.intMul x.d).d * m))

/-- `__truediv__` with a `SqrtFraction` divisor (lines 290–295):
raise on a zero divisor, else `self * ~other`. -/
def div (a b : SqrtFraction) : Option SqrtFraction :=
  if b.eqZero then none else (b.invert).map (fun bi => a.mul bi)

/-- `__truediv__` with an `int` divisor (lines 292, 296–297). -/
def divInt (a : SqrtFraction) (m : ℤ) : Option SqrtFraction :=
  if m = 0 then none else some (canon a.n (a.d * m))

lemma foldl_mul_canonical {f : List ℤ → SqrtFraction} (ts : List (List ℤ)) :
    ∀ init : SqrtFraction, init.IsCanonical → (∀ t ∈ ts, (f t).IsCanonical) →
    ((ts.foldl (fun acc t => acc.mul (f t)) init)).IsCanonical := by
  induction ts with
  | nil => intro init hi _; exact hi
  | cons t ts ih =>
    intro init hi hts
    rw [List.foldl_cons]
    exact ih _ (mul_canonical hi (hts t (List.mem_cons_self _ _)))
      (fun t' ht' => hts t' (List.mem_cons_of_mem _ ht'))

lemma invert_canonical {x : SqrtFraction} (hx : x.IsCanonical) {y : SqrtFraction}
    (h : x.invert = some y) : y.IsCanonical := by
  rw [invert] at h
  by_cases hz : x.eqZero = true
  · rw [if_pos hz] at h
    exact absurd h (by simp)
  · rw [if_neg hz] at h
    by_cases hlen : x.n.length = 1
    · rw [if_pos hlen] at h
      match hxn : x.n, hlen with
      | kv :: t, _ =>
        rw [hxn] at h
        simp only [Option.some.injEq] at h
        have hkv : kv ∈ x.n := by rw [hxn]; exact List.mem_cons_self _ _
        have hv : kv.2 ≠ 0 := (hx.1 kv hkv).2
        have hk : 1 ≤ kv.1 := hx.key_pos kv hkv
        have hne : kv.2 * (kv.1 : ℤ) ≠ 0 := by
          apply mul_ne_zero hv
          exact_mod_cast (by omega : kv.1 ≠ 0)
        rw [← h]
        exact (canonSq_spec _ _ hne).1
    · rw [if_neg hlen] at h
      simp only [] at h
      have hrc : ((((signTuples (x.n.length - 1)).drop 1)).foldl (fun acc t =>
          acc.mul (canon (List.zipWith (fun kv (s : ℤ) => (kv.1, s * kv.2)) x.n (1 :: t)) 1))
          (ofInt 1)).IsCanonical := by
        apply foldl_mul_canonical
        · exact ofInt_canonical 1
        · intro t _
          exact (canonSq_spec _ _ one_ne_zero).1
      match htoi : toInt (((((signTuples (x.n.length - 1)).drop 1)).foldl (fun acc t =>
          acc.mul (canon (List.zipWith (fun kv (s : ℤ) => (kv.1, s * kv.2)) x.n (1 :: t)) 1))
          (ofInt 1)).mul (canon x.n 1)) with
      | none =>
        rw [htoi] at h
        exact absurd h (by simp)
      | some m =>
        rw [htoi] at h
        simp only [] at h
        by_cases hm : m = 0
        · rw [if_pos hm] at h
          exact absurd h (by simp)
        · rw [if_neg hm] at h
          simp only [Option.some.injEq] at h
          have hρ : ((((signTuples (x.n.length - 1)).drop 1)).foldl (fun acc t =>
              acc.mul (canon (List.zipWith (fun kv (s : ℤ) => (kv.1, s * kv.2)) x.n (1 :: t)) 1))
              (ofInt 1)).intMul x.d |>.IsCanonical := intMul_canonical hrc x.d
          have hdne : (((((signTuples (x.n.length - 1)).drop 1)).foldl (fun acc t =>
              acc.mul (canon (List.zipWith (fun kv (s : ℤ) => (kv.1, s * kv.2)) x.n (1 :: t)) 1))
              (ofInt 1)).intMul x.d).d * m ≠ 0 := mul_ne_zero hρ.d_ne hm
          rw [← h]
          exact (canonSq_spec _ _ hdne).1

lemma div_canonical {a b : SqrtFraction} (ha : a.IsCanonical) (hb : b.IsCanonical)
    {q : SqrtFraction} (h : a.div b = some q) : q.IsCanonical := by
  rw [div] at h
  by_cases hz : b.eqZero = true
  · rw [if_pos hz] at h
    exact absurd h (by simp)
  · rw [if_neg hz] at h
    match hbi : b.invert with
    | none => rw [hbi] at h; exact absurd h (by simp)
    | some bi =>
      rw [hbi] at h
      simp only [Option.map_some', Option.some.injEq] at h
      rw [← h]
      exact mul_canonical ha (invert_canonical hb hbi)

lemma divInt_canonical {a : SqrtFraction} (ha : a.IsCanonical) {m : ℤ}
    {q : SqrtFraction} (h : a.divInt m = some q) : q.IsCanonical := by
  rw [divInt] at h
  by_cases hm : m = 0
  · rw [if_pos hm] at h
    exact absurd h (by simp)
  · rw [if_neg hm] at h
    simp only [Option.some.injEq] at h
    rw [← h]
    exact (canonSq_spec _ _ (mul_ne_zero ha.d_ne hm)).1

end SqrtFraction

/-! ### The `SumOfRadicals` class (sumofradicals.py) -/

/-- Degenerate inputs of `simplify_radical`: radicand `0` with degree `≥ 1`
(possible only outside the documented domain) reduces to `(1, 1, 1)`. -/
lemma simplify_radical_rad_zero (n : ℕ) (hn : 1 ≤ n) : simplify_radical n 0 = (1, 1, 1) := by
  obtain ⟨D, _, _, _, h1, h2, h3⟩ := reduceDegreeF_spec n n [] hn le_rfl
  rw [List.map_nil] at h2
  rw [h2, List.map_nil] at h3
  have hg : gcdFoldN (reduceDegreeF n n []).1 [] = (reduceDegreeF n n []).1 := rfl
  rw [hg] at h3
  rw [simplify_radical]
  simp only [factorList_zero, List.map_nil]
  rw [h3, h2]
  rfl

/-- Degenerate degree `0` (outside the documented domain): the gcd loop
exits immediately (its fuel is `0`), all exponent arithmetic is mod/div by
zero, and the radicand is returned unchanged. -/
lemma simplify_radical_deg_zero (r : ℕ) (hr : 1 ≤ r) : simplify_radical 0 r = (1, 0, r) := by
  rw [simplify_radical]
  have hs : (factorList r).map (fun pe => (pe.1, pe.2 / 0))
      = (factorList r).map (fun pe => (pe.1, 0)) := by
    apply List.map_congr_left
    intro pe _
    rw [Nat.div_zero]
  have hf1 : (factorList r).map (fun pe => (pe.1, pe.2 % 0))
      = (factorList r).map (fun pe => pe) := by
    apply List.map_congr_left
    intro pe _
    rw [Nat.mod_zero]
  rw [hs, listProd_exp_zero, hf1, List.map_id']
  have hred : reduceDegreeF 0 0 (factorList r) = (0, factorList r) := rfl
  rw [hred]
  rw [listProd_factorList (by omega)]

/-- Real-number reading of the reducer contract: `r^(1/n) = s * r'^(1/n')`. -/
lemma simplify_radical_rpow (n r : ℕ) (hn : 1 ≤ n) (hr : 1 ≤ r) :
    ∀ s n' r', simplify_radical n r = (s, n', r') →
    (r : ℝ) ^ ((n : ℝ)⁻¹) = (s : ℝ) * (r' : ℝ) ^ ((n' : ℝ)⁻¹) := by
  intro s n' r' hsr
  obtain ⟨hdvd, hn', hr', hround, _, _, _⟩ := simplify_radical_props n r hn hr s n' r' hsr
  have hm0 : ((n / n' : ℕ) : ℝ) ≠ 0 := by
    have h1 : 1 ≤ n / n' := Nat.one_le_div_iff (by omega) |>.mpr (Nat.le_of_dvd (by omega) hdvd)
    exact_mod_cast (by omega : (n / n' : ℕ) ≠ 0)
  have hnR : ((n : ℝ)) ≠ 0 := by exact_mod_cast (by omega : n ≠ 0)
  have hmn : ((n / n' : ℕ) : ℝ) * (n' : ℝ) = (n : ℝ) := by
    exact_mod_cast congrArg (fun t : ℕ => (t : ℝ)) (Nat.div_mul_cancel hdvd)
  have hexp : ((n / n' : ℕ) : ℝ) * (n : ℝ)⁻¹ = (n' : ℝ)⁻¹ := by
    rw [← hmn, mul_inv, ← mul_assoc, mul_inv_cancel₀ hm0, one_mul]
  have hcast : (r : ℝ) = (s : ℝ) ^ (n : ℕ) * (r' : ℝ) ^ (n / n' : ℕ) := by
    exact_mod_cast congrArg (fun t : ℕ => (t : ℝ)) hround.symm
  rw [hcast, Real.mul_rpow (by positivity) (by positivity),
    ← Real.rpow_natCast (s : ℝ) n, ← Real.rpow_natCast (r' : ℝ) (n / n'),
    ← Real.rpow_mul (by positivity), ← Real.rpow_mul (by positivity),
    mul_inv_cancel₀ hnR, hexp, Real.rpow_one]

/-- Key reduction of the `SumOfRadicals` constructor (lines 76–78):
`s, n, r = simplify_radical(n, r)`, as a `(factor, key)` pair. -/
def redSOR (k : ℕ × ℕ) : ℤ × (ℕ × ℕ) :=
  (((simplify_radical k.1 k.2).1 : ℤ),
   ((simplify_radical k.1 k.2).2.1, (simplify_radical k.1 k.2).2.2))

/-- Python tuple comparison on `(degree, radicand)` keys: lexicographic,
as used by `sorted(n.items())` (line 87). -/
def leSOR (a b : ℕ × ℕ) : Bool := Nat.blt a.1 b.1 || (a.1 == b.1 && Nat.ble a.2 b.2)

lemma leSOR_iff (a b : ℕ × ℕ) :
    leSOR a b = true ↔ (a.1 < b.1 ∨ (a.1 = b.1 ∧ a.2 ≤ b.2)) := by
  simp [leSOR, Nat.blt_eq, Nat.ble_eq]

lemma leSOR_total : ∀ a b : ℕ × ℕ, leSOR a b = true ∨ leSOR b a = true := by
  intro a b
  rcases Nat.lt_trichotomy a.1 b.1 with h | h | h
  · exact Or.inl ((leSOR_iff a b).mpr (Or.inl h))
  · rcases Nat.le_total a.2 b.2 with h2 | h2
    · exact Or.inl ((leSOR_iff a b).mpr (Or.inr ⟨h, h2⟩))
    · exact Or.inr ((leSOR_iff b a).mpr (Or.inr ⟨h.symm, h2⟩))
  · exact Or.inr ((leSOR_iff b a).mpr (Or.inl h))

lemma leSOR_trans : ∀ a b c : ℕ × ℕ,
    leSOR a b = true → leSOR b c = true → leSOR a c = true := by
  intro a b c h1 h2
  rw [leSOR_iff] at h1 h2 ⊢
  rcases h1 with h1 | ⟨h1e, h1le⟩ <;> rcases h2 with h2 | ⟨h2e, h2le⟩
  · exact Or.inl (h1.trans h2)
  · exact Or.inl (h2e ▸ h1)
  · exact Or.inl (h1e ▸ h2)
  · exact Or.inr ⟨h1e.trans h2e, h1le.trans h2le⟩

/-- The `SumOfRadicals` class: numerator dictionary keyed by
`(degree, radicand)` (association list in insertion order) and denominator. -/
structure SumOfRadicals where
  n : List ((ℕ × ℕ) × ℤ)
  d : ℤ
deriving DecidableEq

namespace SumOfRadicals

/-- The simplification part of `__init__` (lines 74–89): accumulate reduced
terms, drop zero factors, shorten the fraction, fix the sign, sort. -/
def canon (l : List ((ℕ × ℕ) × ℤ)) (d : ℤ) : SumOfRadicals :=
  ⟨(canonAux redSOR leSOR l d).1, (canonAux redSOR leSOR l d).2⟩

/-- `SumOfRadicals(m)` for an integer (`n = {(1, 1): m}`, default `d = 1`). -/
def ofInt (m : ℤ) : SumOfRadicals := canon [((1, 1), m)] 1

/-- The validating constructor (lines 57–72 + 74–89) on integer raw keys:
a `ValueError` (modelled as `none`) exactly when some degree or radicand is
`< 1` or the denominator is `0`; otherwise the canonicalised instance. -/
def buildOpt (l : List ((ℤ × ℤ) × ℤ)) (d : ℤ) : Option SumOfRadicals :=
  if ¬ (∀ kv ∈ l, 1 ≤ kv.1.1 ∧ 1 ≤ kv.1.2) then none
  else if d = 0 then none
  else some (canon (l.map (fun kv => ((kv.1.1.toNat, kv.1.2.toNat), kv.2))) d)

/-- `__add__` (lines 229–245): cross-multiplied term-wise sum. -/
def add (a b : SumOfRadicals) : SumOfRadicals :=
  canon (b.n.foldl (fun acc kv => addTerm kv.1 (kv.2 * a.d) acc)
    (a.n.foldl (fun acc kv => addTerm kv.1 (kv.2 * b.d) acc) [])) (a.d * b.d)

/-- `__neg__` (lines 247–249): negate the denominator and re-canonicalise. -/
def neg (a : SumOfRadicals) : SumOfRadicals := canon a.n (-a.d)

/-- `__sub__` (lines 251–253): `self + (-other)`. -/
def sub (a b : SumOfRadicals) : SumOfRadicals := add a (neg b)

/-- The product key of `__mul__` (lines 265–266): degree `lcm(ni, nj)` and
radicand `ri^(nk//ni) * rj^(nk//nj)`. -/
def mulKey (a b : ℕ × ℕ) : ℕ × ℕ :=
  (Nat.lcm a.1 b.1, a.2 ^ (Nat.lcm a.1 b.1 / a.1) * b.2 ^ (Nat.lcm a.1 b.1 / b.1))

/-- `__mul__` with a `SumOfRadicals` operand (lines 261–268):
`n[(nk, r)] += vi * vj` over all pairs of terms. -/
def mul (a b : SumOfRadicals) : SumOfRadicals :=
  canon (a.n.foldl (fun acc kvi => b.n.foldl (fun acc2 kvj =>
    addTerm (mulKey kvi.1 kvj.1) (kvi.2 * kvj.2) acc2) acc) []) (a.d * b.d)

/-- `__mul__` with an `int` operand (lines 269–270): scale every factor. -/
def intMul (a : SumOfRadicals) (m : ℤ) : SumOfRadicals :=
  canon (a.n.map (fun kv => (kv.1, kv.2 * m))) a.d

/-- `__truediv__` with an `int` divisor (lines 355–356, 359–360). -/
def divInt (a : SumOfRadicals) (m : ℤ) : Option SumOfRadicals :=
  if m = 0 then none else some (canon a.n (a.d * m))

/-- `__pow__` for a nonnegative exponent (lines 369–376):
`reduce(mul, repeat(self, k), SumOfRadicals(1))`. -/
def pow (a : SumOfRadicals) (k : ℕ) : SumOfRadicals :=
  (List.replicate k a).foldl mul (ofInt 1)

/-- A `(degree, radicand)` key is canonical when the reducer fixes it with
factor 1. -/
def KeyCanon (k : ℕ × ℕ) : Prop := simplify_radical k.1 k.2 = (1, k.1, k.2)

instance (k : ℕ × ℕ) : Decidable (KeyCanon k) := by
  unfold KeyCanon
  infer_instance

/-- The four invariants of a live `SumOfRadicals` (spec §3): every key is a
fixed point of the reducer with non-zero factor, the gcd of all factors and
the denominator is 1, the denominator is positive, and the terms are
strictly sorted by `(degree, radicand)`. -/
def IsCanonical (x : SumOfRadicals) : Prop :=
  (∀ kv ∈ x.n, KeyCanon kv.1 ∧ kv.2 ≠ 0) ∧
  gcdAll x.n x.d = 1 ∧ 0 < x.d ∧
  List.Pairwise (fun a b : (ℕ × ℕ) × ℤ =>
    a.1.1 < b.1.1 ∨ (a.1.1 = b.1.1 ∧ a.1.2 < b.1.2)) x.n

instance (x : SumOfRadicals) : Decidable (IsCanonical x) := by
  unfold IsCanonical
  infer_instance

lemma IsCanonical.dPos {x : SumOfRadicals} (h : x.IsCanonical) : 0 < x.d := h.2.2.1

lemma IsCanonical.dNe {x : SumOfRadicals} (h : x.IsCanonical) : x.d ≠ 0 :=
  ne_of_gt h.dPos

end SumOfRadicals

/-- Every key produced by the reducer is canonical (reducing it again is the
identity with factor 1), including on degenerate degree-0 or radicand-0
inputs. -/
lemma keyCanon_redSOR (k : ℕ × ℕ) : SumOfRadicals.KeyCanon (redSOR k).2 := by
  rcases Nat.eq_zero_or_pos k.1 with h1 | h1
  · rcases Nat.eq_zero_or_pos k.2 with h2 | h2
    · have he : redSOR k = (1, 0, 1) := by
        rw [redSOR, h1, h2]
        rfl
      rw [he]
      decide
    · have he : (redSOR k).2 = (0, k.2) := by
        rw [redSOR, h1, simplify_radical_deg_zero k.2 h2]
      rw [he]
      rw [SumOfRadicals.KeyCanon]
      exact simplify_radical_deg_zero k.2 h2
  · rcases Nat.eq_zero_or_pos k.2 with h2 | h2
    · have he : (redSOR k).2 = (1, 1) := by
        rw [redSOR, h2, simplify_radical_rad_zero k.1 h1]
      rw [he]
      decide
    · have h := simplify_radical_props k.1 k.2 h1 h2
        (simplify_radical k.1 k.2).1 (simplify_radical k.1 k.2).2.1
        (simplify_radical k.1 k.2).2.2 rfl
      exact h.2.2.2.2.2.2

/-- `SumOfRadicals.canon` establishes the four invariants. -/
lemma canonSOR_spec (l : List ((ℕ × ℕ) × ℤ)) (d : ℤ) (hd : d ≠ 0) :
    (SumOfRadicals.canon l d).IsCanonical := by
  obtain ⟨hpos, hgcd, hnz, hsrc, hnodup, hpair⟩ :=
    canonAux_spec redSOR leSOR leSOR_total leSOR_trans l d hd
  refine ⟨?_, hgcd, hpos, ?_⟩
  · intro kv hkv
    obtain ⟨kv0, _, he⟩ := hsrc kv hkv
    exact ⟨he ▸ keyCanon_redSOR kv0.1, hnz kv hkv⟩
  · have hne : List.Pairwise (fun a b : (ℕ × ℕ) × ℤ => a.1 ≠ b.1)
        (canonAux redSOR leSOR l d).1 := List.pairwise_map.mp hnodup
    have hle : List.Pairwise (fun a b : (ℕ × ℕ) × ℤ =>
        a.1.1 < b.1.1 ∨ (a.1.1 = b.1.1 ∧ a.1.2 ≤ b.1.2)) (canonAux redSOR leSOR l d).1 :=
      hpair.imp (fun h => (leSOR_iff _ _).mp h)
    refine (hle.and hne).imp ?_
    rintro ⟨a1, a2⟩ ⟨b1, b2⟩ ⟨hab, hne'⟩
    rcases hab with h | ⟨he, hle'⟩
    · exact Or.inl h
    · refine Or.inr ⟨he, lt_of_le_of_ne hle' ?_⟩
      intro h2
      exact hne' (Prod.ext he h2)

namespace SumOfRadicals

lemma canonSOR_d_pos (l : List ((ℕ × ℕ) × ℤ)) (d : ℤ) (hd : d ≠ 0) :
    0 < (canon l d).d := (canonSOR_spec l d hd).dPos

lemma ofInt_canonical_sor (m : ℤ) : (ofInt m).IsCanonical := canonSOR_spec _ _ one_ne_zero

lemma add_canonical_sor {a b : SumOfRadicals} (ha : a.IsCanonical) (hb : b.IsCanonical) :
    (a.add b).IsCanonical := canonSOR_spec _ _ (mul_ne_zero ha.dNe hb.dNe)

lemma neg_canonical_sor {a : SumOfRadicals} (ha : a.IsCanonical) : a.neg.IsCanonical :=
  canonSOR_spec _ _ (neg_ne_zero.mpr ha.dNe)

lemma sub_canonical_sor {a b : SumOfRadicals} (ha : a.IsCanonical) (hb : b.IsCanonical) :
    (a.sub b).IsCanonical := add_canonical_sor ha (neg_canonical_sor hb)

lemma mul_canonical_sor {a b : SumOfRadicals} (ha : a.IsCanonical) (hb : b.IsCanonical) :
    (a.mul b).IsCanonical := canonSOR_spec _ _ (mul_ne_zero ha.dNe hb.dNe)

lemma intMul_canonical_sor {a : SumOfRadicals} (ha : a.IsCanonical) (m : ℤ) :
    (a.intMul m).IsCanonical := canonSOR_spec _ _ ha.dNe

lemma divInt_canonical_sor {a : SumOfRadicals} (ha : a.IsCanonical) {m : ℤ}
    {q : SumOfRadicals} (h : a.divInt m = some q) : q.IsCanonical := by
  rw [divInt] at h
  by_cases hm : m = 0
  · rw [if_pos hm] at h
    exact absurd h (by simp)
  · rw [if_neg hm] at h
    simp only [Option.some.injEq] at h
    rw [← h]
    exact canonSOR_spec _ _ (mul_ne_zero ha.dNe hm)

lemma pow_canonical_sor {a : SumOfRadicals} (ha : a.IsCanonical) (k : ℕ) :
    (a.pow k).IsCanonical := by
  rw [pow]
  have h : ∀ (m : ℕ) (init : SumOfRadicals), init.IsCanonical →
      ((List.replicate m a).foldl mul init).IsCanonical := by
    intro m
    induction m with
    | zero => intro init hi; exact hi
    | succ m ih =>
      intro init hi
      rw [List.replicate_succ, List.foldl_cons]
      exact ih _ (mul_canonical_sor hi ha)
  exact h k _ (ofInt_canonical_sor 1)

end SumOfRadicals

/-! ### The claims -/

/--C2: every value produced by the constructor — and hence every result of
add, subtract, negate, multiply, divide and power, which all
re-canonicalise through the constructor — satisfies the four invariants
(canonical keys per the reducer, gcd of coefficients and denominator 1,
positive denominator, strictly sorted non-zero terms), for both classes. -/
theorem c2_constructor_invariants :
    (∀ (l : List ((ℤ × ℤ) × ℤ)) (d : ℤ) (x : SumOfRadicals),
      SumOfRadicals.buildOpt l d = some x → x.IsCanonical) ∧
    (∀ a b : SumOfRadicals, a.IsCanonical → b.IsCanonical →
      (a.add b).IsCanonical ∧ (a.sub b).IsCanonical ∧ (a.mul b).IsCanonical) ∧
    (∀ a : SumOfRadicals, a.IsCanonical →
      a.neg.IsCanonical ∧ (∀ k : ℕ, (a.pow k).IsCanonical) ∧
      (∀ (m : ℤ) (q : SumOfRadicals), a.divInt m = some q → q.IsCanonical)) ∧
    (∀ (l : List (ℤ × ℤ)) (d : ℤ) (x : SqrtFraction),
      SqrtFraction.buildOpt l d = some x → x.IsCanonical) ∧
    (∀ a b : SqrtFraction, a.IsCanonical → b.IsCanonical →
      (a.add b).IsCanonical ∧ (a.sub b).IsCanonical ∧ (a.mul b).IsCanonical ∧
      (∀ q, a.div b = some q → q.IsCanonical)) ∧
    (∀ a : SqrtFraction, a.IsCanonical →
      a.neg.IsCanonical ∧ (∀ k : ℕ, (a.pow k).IsCanonical) ∧
      (∀ q, a.invert = some q → q.IsCanonical) ∧
      (∀ (m : ℤ) (q : SqrtFraction), a.divInt m = some q → q.IsCanonical)) := by
  refine ⟨?_, ?_, ?_, ?_, ?_, ?_⟩
  · intro l d x h
    rw [SumOfRadicals.buildOpt] at h
    by_cases hv : ¬ (∀ kv ∈ l, 1 ≤ kv.1.1 ∧ 1 ≤ kv.1.2)
    · rw [if_pos hv] at h
      exact absurd h (by simp)
    · rw [if_neg hv] at h
      by_cases hd : d = 0
      · rw [if_pos hd] at h
        exact absurd h (by simp)
      · rw [if_neg hd] at h
        simp only [Option.some.injEq] at h
        rw [← h]
        exact canonSOR_spec _ _ hd
  · intro a b ha hb
    exact ⟨SumOfRadicals.add_canonical_sor ha hb, SumOfRadicals.sub_canonical_sor ha hb,
      SumOfRadicals.mul_canonical_sor ha hb⟩
  · intro a ha
    exact ⟨SumOfRadicals.neg_canonical_sor ha, SumOfRadicals.pow_canonical_sor ha,
      fun m q h => SumOfRadicals.divInt_canonical_sor ha h⟩
  · intro l d x h
    rw [SqrtFraction.buildOpt] at h
    by_cases hv : ¬ (∀ kv ∈ l, 1 ≤ kv.1)
    · rw [if_pos hv] at h
      exact absurd h (by simp)
    · rw [if_neg hv] at h
      by_cases hd : d = 0
      · rw [if_pos hd] at h
        exact absurd h (by simp)
      · rw [if_neg hd] at h
        simp only [Option.some.injEq] at h
        rw [← h]
        exact (canonSq_spec _ _ hd).1
  · intro a b ha hb
    exact ⟨SqrtFraction.add_canonical ha hb, SqrtFraction.sub_canonical ha hb,
      SqrtFraction.mul_canonical ha hb, fun q h => SqrtFraction.div_canonical ha hb h⟩
  · intro a ha
    exact ⟨SqrtFraction.neg_canonical ha, SqrtFraction.pow_canonical ha,
      fun q h => SqrtFraction.invert_canonical ha h,
      fun m q h => SqrtFraction.divInt_canonical ha h⟩

/--C2 witness: concrete canonical inputs through add and mul. -/
theorem c2_witness :
    ((SumOfRadicals.canon [((2, 8), 1)] 2).add (SumOfRadicals.canon [((2, 8), 1)] 2)).IsCanonical ∧
    ((SqrtFraction.canon [(8, 1)] 2).mul (SqrtFraction.canon [(2, 1)] 1)).IsCanonical :=
  ⟨(c2_constructor_invariants.2.1 _ _ (by decide) (by decide)).1,
   (c2_constructor_invariants.2.2.2.2.1 _ _ (by decide) (by decide)).2.2.1⟩

/--C5: for `n ≥ 1`, `r ≥ 1` the reducer returns `(s, n', r')` with
`r^(1/n) = s·r'^(1/n')`, `n' ∣ n`, outputs positive, the exact round trip
`s^n · r'^(n/n') = r`, `r'` free of `n'`-th powers (every residual prime
exponent `< n'`), `n'` minimal (no common divisor `> 1` with the residual
exponents), and the reduction idempotent; the embedding is a pure function
of `(n, r)`. -/
theorem c5_reducer (n r : ℕ) (hn : 1 ≤ n) (hr : 1 ≤ r) :
    ∀ s n' r', simplify_radical n r = (s, n', r') →
      (r : ℝ) ^ ((n : ℝ)⁻¹) = (s : ℝ) * (r' : ℝ) ^ ((n' : ℝ)⁻¹) ∧
      n' ∣ n ∧ 1 ≤ n' ∧ 1 ≤ r' ∧ s ^ n * r' ^ (n / n') = r ∧
      (∀ q, r'.factorization q < n') ∧
      (∀ m, m ∣ n' → (∀ pe ∈ factorList r', m ∣ pe.2) → m = 1) ∧
      simplify_radical n' r' = (1, n', r') := by
  intro s n' r' h
  obtain ⟨h1, h2, h3, h4, h5, h6, h7⟩ := simplify_radical_props n r hn hr s n' r' h
  exact ⟨simplify_radical_rpow n r hn hr s n' r' h, h1, h2, h3, h4, h5, h6, h7⟩

/--C5 witness: `⁸√... `, concretely `simplify_radical 2 8 = (2, 2, 2)`,
i.e. `√8 = 2·√2`. -/
theorem c5_witness :
    simplify_radical 2 8 = (2, 2, 2) ∧
    ((8 : ℕ) : ℝ) ^ (((2 : ℕ) : ℝ)⁻¹)
      = ((2 : ℕ) : ℝ) * ((2 : ℕ) : ℝ) ^ (((2 : ℕ) : ℝ)⁻¹) :=
  ⟨by decide, (c5_reducer 2 8 (by decide) (by decide) 2 2 2 (by decide)).1⟩

/--C6: construction fails (returns `none`, modelling the raised error)
exactly when some degree or radicand is `< 1` or the denominator is zero,
and on success the result is a valid canonical instance — for both
classes. -/
theorem c6_construction (lS : List ((ℤ × ℤ) × ℤ)) (dS : ℤ)
    (lQ : List (ℤ × ℤ)) (dQ : ℤ) :
    (SumOfRadicals.buildOpt lS dS = none ↔
      (¬ ∀ kv ∈ lS, 1 ≤ kv.1.1 ∧ 1 ≤ kv.1.2) ∨ dS = 0) ∧
    (∀ x, SumOfRadicals.buildOpt lS dS = some x → x.IsCanonical) ∧
    (SqrtFraction.buildOpt lQ dQ = none ↔ (¬ ∀ kv ∈ lQ, 1 ≤ kv.1) ∨ dQ = 0) ∧
    (∀ x, SqrtFraction.buildOpt lQ dQ = some x → x.IsCanonical) := by
  refine ⟨?_, ?_, ?_, ?_⟩
  · rw [SumOfRadicals.buildOpt]
    by_cases hv : ∀ kv ∈ lS, 1 ≤ kv.1.1 ∧ 1 ≤ kv.1.2
    · rw [if_neg (not_not_intro hv)]
      by_cases hd : dS = 0
      · rw [if_pos hd]
        exact iff_of_true rfl (Or.inr hd)
      · rw [if_neg hd]
        constructor
        · intro h
          exact absurd h (by simp)
        · rintro (h | h)
          · exact absurd hv h
          · exact absurd h hd
    · rw [if_pos hv]
      exact iff_of_true rfl (Or.inl hv)
  · intro x h
    rw [SumOfRadicals.buildOpt] at h
    by_cases hv : ¬ (∀ kv ∈ lS, 1 ≤ kv.1.1 ∧ 1 ≤ kv.1.2)
    · rw [if_pos hv] at h
      exact absurd h (by simp)
    · rw [if_neg hv] at h
      by_cases hd : dS = 0
      · rw [if_pos hd] at h
        exact absurd h (by simp)
      · rw [if_neg hd] at h
        simp only [Option.some.injEq] at h
        rw [← h]
        exact canonSOR_spec _ _ hd
  · rw [SqrtFraction.buildOpt]
    by_cases hv : ∀ kv ∈ lQ, 1 ≤ kv.1
    · rw [if_neg (not_not_intro hv)]
      by_cases hd : dQ = 0
      · rw [if_pos hd]
        exact iff_of_true rfl (Or.inr hd)
      · rw [if_neg hd]
        constructor
        · intro h
          exact absurd h (by simp)
        · rintro (h | h)
          · exact absurd hv h
          · exact absurd h hd
    · rw [if_pos hv]
      exact iff_of_true rfl (Or.inl hv)
  · intro x h
    rw [SqrtFraction.buildOpt] at h
    by_cases hv : ¬ (∀ kv ∈ lQ, 1 ≤ kv.1)
    · rw [if_pos hv] at h
      exact absurd h (by simp)
    · rw [if_neg hv] at h
      by_cases hd : dQ = 0
      · rw [if_pos hd] at h
        exact absurd h (by simp)
      · rw [if_neg hd] at h
        simp only [Option.some.injEq] at h
        rw [← h]
        exact (canonSq_spec _ _ hd).1

/--C6 witness: a degree-0 key fails, a zero denominator fails. -/
theorem c6_witness :
    SumOfRadicals.buildOpt [((0, 2), 1)] 1 = none ∧
    SqrtFraction.buildOpt [(2, 1)] 0 = none :=
  ⟨(c6_construction [((0, 2), 1)] 1 [] 1).1.mpr (Or.inl (by decide)),
   (c6_construction [] 1 [(2, 1)] 0).2.2.1.mpr (Or.inr rfl)⟩

/--C8: the product accumulates `vA·vB` at key
`(lcm(nA, nB), rA^(lcm/nA)·rB^(lcm/nB))` for every pair of terms, over the
denominator `a.d·b.d`, then re-canonicalises; an integer operand scales
every coefficient and leaves the denominator unchanged. -/
theorem c8_mul (a b : SumOfRadicals) (m : ℤ) :
    (∀ q : ℕ × ℕ, lookupCoeff q (a.n.foldl (fun acc kvi => b.n.foldl (fun acc2 kvj =>
        addTerm (SumOfRadicals.mulKey kvi.1 kvj.1) (kvi.2 * kvj.2) acc2) acc) [])
      = (a.n.map (fun kvi => (b.n.map (fun kvj =>
          if SumOfRadicals.mulKey kvi.1 kvj.1 = q then kvi.2 * kvj.2 else 0)).sum)).sum) ∧
    a.mul b = SumOfRadicals.canon (a.n.foldl (fun acc kvi => b.n.foldl (fun acc2 kvj =>
        addTerm (SumOfRadicals.mulKey kvi.1 kvj.1) (kvi.2 * kvj.2) acc2) acc) [])
      (a.d * b.d) ∧
    (∀ ka kb : ℕ × ℕ, SumOfRadicals.mulKey ka kb
      = (Nat.lcm ka.1 kb.1,
         ka.2 ^ (Nat.lcm ka.1 kb.1 / ka.1) * kb.2 ^ (Nat.lcm ka.1 kb.1 / kb.1))) ∧
    a.intMul m = SumOfRadicals.canon (a.n.map (fun kv => (kv.1, kv.2 * m))) a.d := by
  exact ⟨fun q => lookupCoeff_rawMul SumOfRadicals.mulKey a.n b.n q,
    rfl, fun ka kb => rfl, rfl⟩

/--C8 witness: the `√2·³√3` product list has coefficient 1 at `(6, 72)`. -/
theorem c8_witness :
    lookupCoeff ((6 : ℕ), (72 : ℕ))
      ((SumOfRadicals.canon [((2, 2), 1)] 1).n.foldl (fun acc kvi =>
        (SumOfRadicals.canon [((3, 3), 1)] 1).n.foldl (fun acc2 kvj =>
          addTerm (SumOfRadicals.mulKey kvi.1 kvj.1) (kvi.2 * kvj.2) acc2) acc) [])
    = ((SumOfRadicals.canon [((2, 2), 1)] 1).n.map (fun kvi =>
        ((SumOfRadicals.canon [((3, 3), 1)] 1).n.map (fun kvj =>
          if SumOfRadicals.mulKey kvi.1 kvj.1 = ((6 : ℕ), (72 : ℕ))
          then kvi.2 * kvj.2 else 0)).sum)).sum :=
  (c8_mul (SumOfRadicals.canon [((2, 2), 1)] 1) (SumOfRadicals.canon [((3, 3), 1)] 1) 0).1
    ((6 : ℕ), (72 : ℕ))

/--C3: for every canonical `SqrtFraction` (all terms have degree 2 by
construction of the class), the radical-elimination sign procedure, run
with fuel equal to the number of distinct primes of the radicands, returns
the true sign of the real value; in particular the scenario value
`build({2:1, 3:1}, 1) − build({6:1}, 1) = √2+√3−√6` gets sign `+1`, and
its real value is indeed positive. -/
theorem c3_sign_correct (x : SqrtFraction) (hx : x.IsCanonical) :
    (∃ s, signFuel x.primesOf.card x = some s ∧ SignEncodes s x.val) ∧
    signFuel 2 ((SqrtFraction.canon [(2, 1), (3, 1)] 1).sub (SqrtFraction.canon [(6, 1)] 1))
      = some 1 ∧
    0 < ((SqrtFraction.canon [(2, 1), (3, 1)] 1).sub (SqrtFraction.canon [(6, 1)] 1)).val := by
  refine ⟨signFuel_correct x.primesOf.card x hx le_rfl, by decide, ?_⟩
  obtain ⟨s, hs, he⟩ := signFuel_correct 2
    ((SqrtFraction.canon [(2, 1), (3, 1)] 1).sub (SqrtFraction.canon [(6, 1)] 1))
    (by decide) (by decide)
  have h1 : signFuel 2
      ((SqrtFraction.canon [(2, 1), (3, 1)] 1).sub (SqrtFraction.canon [(6, 1)] 1))
      = some 1 := by decide
  rw [h1] at hs
  have hs1 : s = 1 := by
    injection hs.symm
  rw [hs1] at he
  rcases he with ⟨hv, _⟩ | ⟨_, h0⟩ | ⟨_, h0⟩
  · exact hv
  · exact absurd h0 (by decide)
  · exact absurd h0 (by decide)

/--C3 witness: the scenario instance. -/
theorem c3_witness :
    signFuel 2 ((SqrtFraction.canon [(2, 1), (3, 1)] 1).sub (SqrtFraction.canon [(6, 1)] 1))
      = some 1 :=
  (c3_sign_correct (SqrtFraction.canon [(2, 1), (3, 1)] 1) (by decide)).2.1

/--C4: the pivot-elimination recursion terminates on every canonical
input: with fuel equal to the number of distinct primes across the
radicands the procedure returns a result, because each level's two split
values only involve primes of the parent with the pivot (the largest
prime) removed. -/
theorem c4_termination (x : SqrtFraction) (hx : x.IsCanonical) :
    (signFuel x.primesOf.card x).isSome = true ∧
    (x.is_fraction = false →
      (x.lSplit x.maxPrime).primesOf ⊆ x.primesOf \ {x.maxPrime} ∧
      (x.rSplit x.maxPrime).primesOf ⊆ x.primesOf \ {x.maxPrime}) := by
  constructor
  · obtain ⟨s, hs, _⟩ := signFuel_correct x.primesOf.card x hx le_rfl
    rw [hs]
    rfl
  · intro hnf
    obtain ⟨hp, _, _⟩ := SqrtFraction.maxPrime_spec hx.key_pos hnf
    exact ⟨SqrtFraction.primesOf_lSplit_sub hx.d_ne hp.pos,
      SqrtFraction.primesOf_rSplit_sub hx.d_ne hp
        (fun kv hkv => (hx.1 kv hkv).1) hx.key_pos⟩

/--C4 witness: the procedure terminates on `√2+√3−√6` with fuel 2 (its
prime count). -/
theorem c4_witness :
    (signFuel ((SqrtFraction.canon [(2, 1), (3, 1)] 1).sub
      (SqrtFraction.canon [(6, 1)] 1)).primesOf.card
      ((SqrtFraction.canon [(2, 1), (3, 1)] 1).sub
        (SqrtFraction.canon [(6, 1)] 1))).isSome = true :=
  (c4_termination _ (by decide)).1

/--C9 counterexample: the value `1 + √2` (canonically
`{1: 1, 2: 1} / 1`) has exactly one non-rational term (`k = 1`), yet
`__invert__` does not take the direct-rationalisation branch — the branch
condition is `len(self) == 1` on the total term count, which is 2 here —
and instead computes the inverse `√2 − 1` by the conjugate product. -/
theorem c9_counterexample :
    (SqrtFraction.canon [(1, 1), (2, 1)] 1).nonRationalCount = 1 ∧
    (SqrtFraction.canon [(1, 1), (2, 1)] 1).invertUsesDirect = false ∧
    (SqrtFraction.canon [(1, 1), (2, 1)] 1).n.length = 2 ∧
    (SqrtFraction.canon [(1, 1), (2, 1)] 1).eqZero = false ∧
    (SqrtFraction.canon [(1, 1), (2, 1)] 1).invert = some ⟨[(1, -1), (2, 1)], 1⟩ := by
  decide

/--C9 amended: the direct-rationalisation branch of `__invert__` is taken
exactly when the numerator has one term in total (rational or not); on
that branch the inverse of `v·√r/d` is `d·√r/(v·r)` and multiplying back
gives the real number 1. -/
theorem c9_amended (x : SqrtFraction) (hx : x.IsCanonical) (hz : x.eqZero = false) :
    (x.invertUsesDirect = true ↔ x.n.length = 1) ∧
    (x.n.length = 1 →
      x.invert = some (SqrtFraction.canon [(x.n.headI.1, x.d)]
        (x.n.headI.2 * (x.n.headI.1 : ℤ))) ∧
      ∀ y, x.invert = some y → x.val * y.val = 1) := by
  constructor
  · simp [SqrtFraction.invertUsesDirect]
  · intro hlen
    obtain ⟨kv, hxn⟩ : ∃ kv, x.n = [kv] := by
      rcases hn : x.n with _ | ⟨kv, t⟩
      · rw [hn] at hlen
        simp at hlen
      · rcases ht : t with _ | ⟨b, t2⟩
        · exact ⟨kv, rfl⟩
        · rw [hn, ht] at hlen
          simp at hlen
    have hkv : kv ∈ x.n := by
      rw [hxn]
      exact List.mem_cons_self _ _
    have hk1 : 1 ≤ kv.1 := hx.key_pos kv hkv
    have hv : kv.2 ≠ 0 := (hx.1 kv hkv).2
    have hd0 : x.d ≠ 0 := hx.d_ne
    have hkz : (kv.1 : ℤ) ≠ 0 := by exact_mod_cast (by omega : kv.1 ≠ 0)
    have hinv : x.invert = some (SqrtFraction.canon [(x.n.headI.1, x.d)]
        (x.n.headI.2 * (x.n.headI.1 : ℤ))) := by
      rw [SqrtFraction.invert, if_neg (by simp [hz]), if_pos hlen, hxn]
      rfl
    refine ⟨hinv, ?_⟩
    intro y hy
    rw [hinv] at hy
    simp only [Option.some.injEq] at hy
    have hdenne' : kv.2 * (kv.1 : ℤ) ≠ 0 := mul_ne_zero hv hkz
    have hdenne : x.n.headI.2 * (x.n.headI.1 : ℤ) ≠ 0 := by
      rw [hxn]
      exact hdenne'
    have hyval : y.val = valList sqrtW [(x.n.headI.1, x.d)]
        / ((x.n.headI.2 * (x.n.headI.1 : ℤ) : ℤ) : ℝ) := by
      rw [← hy]
      exact canonSq_val _ _ hdenne
    rw [hyval, SqrtFraction.val, hxn]
    simp only [List.headI]
    rw [valList_cons, valList_nil, valList_cons, valList_nil]
    have hsq : sqrtW kv.1 * sqrtW kv.1 = (kv.1 : ℝ) :=
      Real.mul_self_sqrt (by positivity)
    have hvR : ((kv.2 : ℤ) : ℝ) ≠ 0 := by exact_mod_cast hv
    have hdR : ((x.d : ℤ) : ℝ) ≠ 0 := by exact_mod_cast hd0
    have hkR : ((kv.1 : ℕ) : ℝ) ≠ 0 := by exact_mod_cast (by omega : kv.1 ≠ 0)
    rw [add_zero, add_zero, div_mul_div_comm]
    have hnum : (kv.2 : ℝ) * sqrtW kv.1 * ((x.d : ℝ) * sqrtW kv.1)
        = (x.d : ℝ) * ((kv.2 * (kv.1 : ℤ) : ℤ) : ℝ) := by
      push_cast
      linear_combination ((kv.2 : ℝ) * (x.d : ℝ)) * hsq
    rw [hnum]
    exact div_self (by
      apply mul_ne_zero hdR
      exact_mod_cast hdenne')

/--C9 amended witness: the single-term value `√2/1`. -/
theorem c9_witness :
    (SqrtFraction.canon [(2, 1)] 1).invert = some (SqrtFraction.canon
      [((SqrtFraction.canon [(2, 1)] 1).n.headI.1, (SqrtFraction.canon [(2, 1)] 1).d)]
      ((SqrtFraction.canon [(2, 1)] 1).n.headI.2
        * ((SqrtFraction.canon [(2, 1)] 1).n.headI.1 : ℤ))) :=
  ((c9_amended (SqrtFraction.canon [(2, 1)] 1) (by decide) (by decide)).2 (by decide)).1

/--C10: raising any value — the canonical zero included — to the power 0
returns the canonical value 1 for both classes, because the
repeated-multiplication fold starts from the identity 1. -/
theorem c10_pow_zero :
    (∀ a : SumOfRadicals, a.pow 0 = SumOfRadicals.ofInt 1) ∧
    SumOfRadicals.ofInt 1 = ⟨[((1, 1), 1)], 1⟩ ∧
    (SumOfRadicals.ofInt 1).IsCanonical ∧
    (∀ a : SqrtFraction, a.pow 0 = SqrtFraction.ofInt 1) ∧
    SqrtFraction.ofInt 1 = ⟨[(1, 1)], 1⟩ ∧
    (SqrtFraction.ofInt 1).IsCanonical ∧
    (SumOfRadicals.canon [] 1).pow 0 = SumOfRadicals.ofInt 1 ∧
    (SqrtFraction.canon [] 1).pow 0 = SqrtFraction.ofInt 1 :=
  ⟨fun a => rfl, by decide, by decide, fun a => rfl, by decide, by decide, rfl, rfl⟩

/--C10 witness: the canonical zero to the power 0. -/
theorem c10_witness : (SumOfRadicals.canon [] 1).pow 0 = SumOfRadicals.ofInt 1 :=
  c10_pow_zero.1 (SumOfRadicals.canon [] 1)

end SofR
